import Mathlib

/-!
# biny: the skip-list memtable of `pkg/storage`

A shallow embedding of `store.go` and a verification of its specification.

Modelling conventions.

* A byte is a natural number and a byte slice a `List Nat`; no arithmetic is ever
  performed on bytes, only comparison.
* Every integer the code stores in `entries`, `prevEntry` and `mHeight` is a length,
  a height or an index of `entries`; these are natural numbers.  The two counters
  `cacheSize` and `txCount` are decremented by the code and are integers, and so is
  the level variable `h` of the scan, which starts at `mHeight - 1`.
* A run-time panic (index or slice bound out of range) and a loop that does not
  return are results of the model: see `Fault`.
* The store is guarded by a lock in the source; the model is sequential, so
  `Lock`/`Unlock` have no counterpart.
* Two things the code obtains from the Go runtime and library are carried in the
  state as oracles: the values `s.rnd.Int()` is going to return (`rnd`) and the
  capacity `append` picks when it has to reallocate the arena (`growCap`).
-/

namespace Storage

/-- A byte slice. -/
abbrev Bytes := List Nat

def defaultCachSize : Nat := 2048
def tableHeight : Nat := 12
def tableOffset : Nat := 4
def magicBytes : Nat := 0xcafebabe

def nKV : Nat := 0
def nKey : Nat := 1
def nVal : Nat := 2
def nHeight : Nat := 3
def nNext : Nat := 4

/-- The two error values of the package; Go's `nil` error is `none : Option error`. -/
inductive error where
  | errKeyNotFound
  | errMissingKey
  deriving DecidableEq

/-- The ways a call can fail to return normally: a run-time panic
(`outOfRange`) or a loop that never exits (`noReturn`). -/
inductive Fault where
  | outOfRange
  | noReturn
  deriving DecidableEq

/-- The `Config` struct. -/
structure Config where
  Capacity : Nat

/-- The `store` struct.  `cache` holds the `len(s.cache)` bytes of the arena and
`cacheCap` is `cap(s.cache)`. -/
structure store where
  txCount : Int
  rnd : Nat → Nat
  cacheSize : Int
  cache : Bytes
  cacheCap : Nat
  growCap : Nat → Nat → Nat
  entries : List Nat
  prevEntry : List Nat
  mHeight : Nat

/-- The expression `xs[i]` for an index known to be non-negative. -/
def idx (xs : List Nat) (i : Nat) : Except Fault Nat :=
  match xs[i]? with
  | some v => .ok v
  | none => .error .outOfRange

/-- The expression `xs[i]` for a signed index. -/
def idxI (xs : List Nat) (i : Int) : Except Fault Nat :=
  if i < 0 then .error .outOfRange else idx xs i.toNat

/-- The assignment `xs[i] = v` for an index known to be non-negative. -/
def setIdx (xs : List Nat) (i : Nat) (v : Nat) : Except Fault (List Nat) :=
  if i < xs.length then .ok (xs.set i v) else .error .outOfRange

/-- The assignment `xs[i] = v` for a signed index. -/
def setIdxI (xs : List Nat) (i : Int) (v : Nat) : Except Fault (List Nat) :=
  if i < 0 then .error .outOfRange else setIdx xs i.toNat v

/-- The slice expression `xs[lo:hi]`.  Bounds are checked against the length;
Go checks `hi` against the capacity, which differs only when a slice reaches past
the bytes written so far. -/
def sliceOf (xs : List Nat) (lo hi : Nat) : Except Fault (List Nat) :=
  if lo ≤ hi ∧ hi ≤ xs.length then .ok ((xs.drop lo).take (hi - lo)) else .error .outOfRange

/-- The function `bytes.Compare`: lexicographic comparison, result in `{-1, 0, 1}`. -/
def bytesCompare : Bytes → Bytes → Int
  | [], [] => 0
  | [], _ :: _ => -1
  | _ :: _, [] => 1
  | a :: as, b :: bs => if a < b then -1 else if b < a then 1 else bytesCompare as bs

/-- The statement `s.cache = append(s.cache, p...)`. -/
def appendCache (s : store) (p : Bytes) : store :=
  { s with
    cache := s.cache ++ p
    cacheCap :=
      if s.cache.length + p.length ≤ s.cacheCap then s.cacheCap
      else s.growCap s.cacheCap (s.cache.length + p.length) }

/-- The loop of `scanEntries`; `prev` is `s.prevEntry` and `record` the
parameter `prevEntry`.  One unit of fuel is one iteration. -/
def scanLoop (entries : List Nat) (cache key : Bytes) (record : Bool) :
    Nat → Nat → Int → List Nat → Except Fault (List Nat × Nat × Bool)
  | 0, _, _, _ => .error .noReturn
  | fuel + 1, entry, h, prev => do
    let nextEntry ← idxI entries (entry + nNext + h)
    let mtch : Int ←
      if nextEntry ≠ 0 then do
        let o ← idx entries nextEntry
        let k ← idx entries (nextEntry + nKey)
        let b ← sliceOf cache o (o + k)
        pure (bytesCompare b key)
      else pure 1
    if mtch < 0 then
      scanLoop entries cache key record fuel nextEntry h prev
    else do
      let prev ← if record then setIdxI prev h entry else pure prev
      if mtch = 0 then
        pure (prev, nextEntry, true)
      else if h = 0 then
        pure (prev, nextEntry, mtch = 0)
      else
        scanLoop entries cache key record fuel entry (h - 1) prev

/-- An iteration count the loop of `scanEntries` cannot reach unless it repeats a
state: an iteration is determined by `entry`, an index of `entries`, and by `h`,
which only decreases, starts below `mHeight` and keeps `entry + nNext + h`
non-negative. -/
def scanFuel (s : store) : Nat :=
  s.entries.length * (s.mHeight + s.entries.length + nNext) + 1

/-- The method `scanEntries`. -/
def scanEntries (s : store) (key : Bytes) (prevEntry : Bool) :
    Except Fault (store × Nat × Bool) := do
  let (prev, entry, mtch) ←
    scanLoop s.entries s.cache key prevEntry (scanFuel s) 0 ((s.mHeight : Int) - 1) s.prevEntry
  pure ({ s with prevEntry := prev }, entry, mtch)

/-- The loop of `randomTableHeight`, run on the stream of future draws; returns
the height and the rest of the stream. -/
def heightLoop : Nat → Nat → (Nat → Nat) → Nat × (Nat → Nat)
  | 0, i, rnd => (i, rnd)
  | fuel + 1, i, rnd =>
    if i < tableHeight then
      if rnd 0 % 4 = 0 then heightLoop fuel (i + 1) (fun j => rnd (j + 1))
      else (i, fun j => rnd (j + 1))
    else (i, rnd)

/-- The method `randomTableHeight`.  The loop increments `i` from 1 and stops at
`tableHeight`, so `tableHeight` iterations are never exceeded. -/
def randomTableHeight (s : store) : store × Nat :=
  let r := heightLoop tableHeight 1 s.rnd
  ({ s with rnd := r.2 }, r.1)

/-- The loop `for i := s.mHeight; i < height; i++ { s.prevEntry[i] = 0 }`, as a
recursion on the number of iterations left. -/
def resetLoop : Nat → Nat → List Nat → Except Fault (List Nat)
  | 0, _, prev => pure prev
  | n + 1, i, prev => do
    let prev ← setIdx prev i 0
    resetLoop n (i + 1) prev

/-- The loop `for i, n := range s.prevEntry[:height]` of `writeLock`; the second
argument is the part of the slice not yet visited. -/
def spliceLoop (entry : Nat) : Nat → List Nat → List Nat → Except Fault (List Nat)
  | _, [], es => pure es
  | i, n :: rest, es => do
    let m := n + i + nNext
    let v ← idx es m
    let es := es ++ [v]
    let es ← setIdx es m entry
    spliceLoop entry (i + 1) rest es

/-- The method `writeLock`. -/
def writeLock (s : store) (key value : Bytes) : Except Fault (store × Option error) := do
  let kLen := key.length
  let vLen := value.length
  let (s, entry, mtch) ← scanEntries s key true
  if mtch then
    let cacheSize := s.cache.length
    let s := appendCache s key
    let s := appendCache s value
    let es ← setIdx s.entries entry cacheSize
    let m ← idx es (entry + nVal)
    let es ← setIdx es (entry + nVal) value.length
    pure ({ s with entries := es, cacheSize := s.cacheSize + ((value.length : Int) - m) }, none)
  else
    let (s, height) := randomTableHeight s
    let prev ←
      if height > s.mHeight then resetLoop (height - s.mHeight) s.mHeight s.prevEntry
      else pure s.prevEntry
    let s := { s with prevEntry := prev, mHeight := if height > s.mHeight then height else s.mHeight }
    let size := s.cache.length
    let buf := key ++ value
    let s := appendCache s buf
    let entry := s.entries.length
    let es := s.entries ++ [size, kLen, vLen, height]
    let trail ← sliceOf s.prevEntry 0 height
    let es ← spliceLoop entry 0 trail es
    pure ({ s with entries := es, cacheSize := s.cacheSize + ((kLen : Int) + vLen),
                   txCount := s.txCount + 1 }, none)

/-- The loop `for i, n := range s.prevEntry[:height]` of `deleteLock`. -/
def unlinkLoop : Nat → List Nat → List Nat → Except Fault (List Nat)
  | _, [], es => pure es
  | i, n :: rest, es => do
    let m := i + tableOffset + n
    let a ← idx es m
    let b ← idx es (a + nNext + i)
    let es ← setIdx es m b
    unlinkLoop (i + 1) rest es

/-- The method `deleteLock`. -/
def deleteLock (s : store) (key : Bytes) : Except Fault (store × Option error) := do
  let (s, entry, mtch) ← scanEntries s key true
  if !mtch then
    pure (s, some error.errKeyNotFound)
  else
    let height ← idx s.entries (entry + nHeight)
    let trail ← sliceOf s.prevEntry 0 height
    let es ← unlinkLoop 0 trail s.entries
    let k ← idx es (entry + nKey)
    let v ← idx es (entry + nVal)
    pure ({ s with entries := es, cacheSize := s.cacheSize - ((k : Int) + v),
                   txCount := s.txCount - 1 }, none)

/-- The method `readLock`; a `nil` slice is `none`. -/
def readLock (s : store) (key : Bytes) : Except Fault (store × Option Bytes × Option error) := do
  let (s, entry, mtch) ← scanEntries s key false
  if mtch then
    let a ← idx s.entries entry
    let b ← idx s.entries (entry + nKey)
    let offset := a + b
    let n ← idx s.entries (entry + nVal)
    let v ← sliceOf s.cache offset (offset + n)
    pure (s, some v, none)
  else
    pure (s, none, some error.errKeyNotFound)

/-- The method `has`. -/
def has (s : store) (key : Bytes) : Except Fault (store × Bool) := do
  let (s, _, exist) ← scanEntries s key false
  pure (s, exist)

/-- The method `Write`. -/
def Write (s : store) (key val : Bytes) : Except Fault (store × Option error) :=
  if key.length = 0 then pure (s, some error.errMissingKey)
  else writeLock s key val

/-- The method `Read`. -/
def Read (s : store) (key : Bytes) : Except Fault (store × Option Bytes × Option error) :=
  if key.length = 0 then pure (s, none, some error.errMissingKey)
  else readLock s key

/-- The method `Available`. -/
def Available (s : store) : Int := (s.cacheCap : Int) - s.cache.length

/-- The method `CacheSize`. -/
def CacheSize (s : store) : Int := s.cacheSize

/-- The method `EntryCount`. -/
def EntryCount (s : store) : Int := s.txCount

/-- The function `newStore`; `draws` is the stream of values the generator
`rand.New(rand.NewSource(magicBytes))` returns and `grow` the reallocation policy
of `append`. -/
def newStore (draws : Nat → Nat) (grow : Nat → Nat → Nat) (capacity : Nat) : store :=
  { txCount := 0
    rnd := draws
    cacheSize := 0
    cache := []
    cacheCap := capacity
    growCap := grow
    entries := (List.replicate (4 + tableHeight) 0).set nHeight tableHeight
    prevEntry := List.replicate tableHeight 0
    mHeight := 1 }

/-- The function `NewStore`. -/
def NewStore (draws : Nat → Nat) (grow : Nat → Nat → Nat) (cfg : Config) : store :=
  newStore draws grow cfg.Capacity

/-- A call on the store. -/
inductive Call where
  | write (key val : Bytes)
  | delete (key : Bytes)
  | read (key : Bytes)
  deriving DecidableEq

/-- What a call returns: an error, or a value and an error. -/
inductive Reply where
  | err (e : Option error)
  | val (v : Option Bytes) (e : Option error)
  deriving DecidableEq

/-- One call: `Write`, `deleteLock` or `Read`. -/
def step (s : store) : Call → Except Fault (store × Reply)
  | .write k v => do
    let (s, e) ← Write s k v
    pure (s, .err e)
  | .delete k => do
    let (s, e) ← deleteLock s k
    pure (s, .err e)
  | .read k => do
    let (s, v, e) ← Read s k
    pure (s, .val v e)

/-- A sequence of calls, with the replies in order. -/
def run (s : store) : List Call → Except Fault (store × List Reply)
  | [] => pure (s, [])
  | c :: cs => do
    let (s, r) ← step s c
    let (s, rs) ← run s cs
    pure (s, r :: rs)

/-! ## Vocabulary of the specification -/

/-- The height slot of the node at index `n`. -/
def hgt (es : List Nat) (n : Nat) : Nat := es.getD (n + nHeight) 0

/-- The forward pointer of the node at index `n` at level `l`. -/
def nxt (es : List Nat) (n l : Nat) : Nat := es.getD (n + nNext + l) 0

/-- The key bytes of the node at index `n`. -/
def keyAt (es : List Nat) (cache : Bytes) (n : Nat) : Bytes :=
  (cache.drop (es.getD n 0)).take (es.getD (n + nKey) 0)

/-- The value bytes of the node at index `n`. -/
def valAt (es : List Nat) (cache : Bytes) (n : Nat) : Bytes :=
  (cache.drop (es.getD n 0 + es.getD (n + nKey) 0)).take (es.getD (n + nVal) 0)

/-- The first node of the list `L` that takes part in level `l`, or 0. -/
def firstAt (es : List Nat) (l : Nat) (L : List Nat) : Nat :=
  (L.find? (fun y => decide (l < hgt es y))).getD 0

/-- The node `p` is the last one of `0 :: lo` that takes part in level `l`. -/
def IsPred (es : List Nat) (lo : List Nat) (l p : Nat) : Prop :=
  ∃ A B, 0 :: lo = A ++ p :: B ∧ l < hgt es p ∧ ∀ y ∈ B, hgt es y ≤ l

/-- The index vector `es` and the arena `cache` represent a skip list of maximal
height `mH` whose nodes, in the order of level 0, are `ns`. -/
structure WF (es : List Nat) (cache : Bytes) (mH : Nat) (ns : List Nat) : Prop where
  mH_pos : 1 ≤ mH
  mH_le : mH ≤ tableHeight
  head_hgt : hgt es 0 = tableHeight
  count : 4 + tableHeight + 5 * ns.length ≤ es.length
  ns_ge : ∀ n ∈ ns, 4 + tableHeight ≤ n
  ns_fit : ∀ n ∈ ns, n + nNext + hgt es n ≤ es.length
  hgt_pos : ∀ n ∈ ns, 1 ≤ hgt es n
  hgt_le : ∀ n ∈ ns, hgt es n ≤ mH
  data_fit : ∀ n ∈ ns, es.getD n 0 + es.getD (n + nKey) 0 + es.getD (n + nVal) 0 ≤ cache.length
  disj : ∀ n ∈ ns, ∀ n' ∈ ns, n < n' → n + nNext + hgt es n ≤ n'
  sorted : ns.Pairwise (fun a b => bytesCompare (keyAt es cache a) (keyAt es cache b) < 0)
  links : ∀ A x B, 0 :: ns = A ++ x :: B → ∀ l, l < hgt es x → nxt es x l = firstAt es l B

/-- The store `s` is a well-formed skip list over the nodes `ns`. -/
def Valid (s : store) (ns : List Nat) : Prop :=
  WF s.entries s.cache s.mHeight ns ∧ s.prevEntry.length = tableHeight

/-- The value the last write of `k` in `ws` stored, if `k` was written. -/
def lastVal (ws : List (Bytes × Bytes)) (k : Bytes) : Option Bytes :=
  (ws.reverse.find? (fun w => decide (w.1 = k))).map Prod.snd

/-- The store `s` over the nodes `ns` holds exactly the bindings of `f`. -/
def Holds (s : store) (ns : List Nat) (f : Bytes → Option Bytes) : Prop :=
  ∀ k, (∀ v, f k = some v → ∃ n ∈ ns, keyAt s.entries s.cache n = k ∧ valAt s.entries s.cache n = v) ∧
    (f k = none → ∀ n ∈ ns, keyAt s.entries s.cache n ≠ k)

/-! ## Observations used to state the claims -/

/-- The replies of a sequence of calls. -/
def replies (s : store) (cs : List Call) : Except Fault (List Reply) :=
  (run s cs).map Prod.snd

/-- The nodes met in the first `fuel` steps along the forward pointers of level `l`,
starting behind node `n` and stopping at pointer 0. -/
def walk (es : List Nat) (l : Nat) : Nat → Nat → List Nat
  | 0, _ => []
  | fuel + 1, n => if nxt es n l = 0 then [] else nxt es n l :: walk es l fuel (nxt es n l)

/-- A stream of draws whose first value is divisible by 4 and no other is: the
first inserted node gets height 2, every later one height 1. -/
def tallFirst : Nat → Nat := fun i => if i = 0 then 0 else 1

/-- A reallocation policy for the arena: twice the length needed. -/
def doubling : Nat → Nat → Nat := fun _ n => 2 * n

/-! ## The arena helper of `cache.go` -/

/-- A Go byte slice: `arr` is its backing array, from the first element of the
slice to the end of its capacity, and `len` its length. -/
structure byteSlice where
  arr : List Nat
  len : Nat

/-- The capacity `cap(b)`. -/
def byteSlice.cap (b : byteSlice) : Nat := b.arr.length

/-- The bytes of the slice, `b[0]`, ..., `b[len(b)-1]`. -/
def byteSlice.bytes (b : byteSlice) : Bytes := b.arr.take b.len

/-- The `binyCache` struct. -/
structure binyCache where
  buf : byteSlice
  off : Int
  bootStrap : List Nat

/-- The expression `make([]byte, n, c)`. -/
def makeSlice (n c : Nat) : Except Fault byteSlice :=
  if n ≤ c then .ok { arr := List.replicate c 0, len := n } else .error .outOfRange

/-- The slice expression `b[:n]`, which may reach up to the capacity. -/
def reslice (b : byteSlice) (n : Nat) : Except Fault byteSlice :=
  if n ≤ b.cap then .ok { b with len := n } else .error .outOfRange

/-- The statement `copy(dst[pos:], src)`: it overwrites
`min(len(dst) - pos, len(src))` elements of the backing array of `dst`. -/
def copyInto (dst : byteSlice) (pos : Nat) (src : Bytes) : Except Fault byteSlice :=
  if pos ≤ dst.len then
    .ok { dst with
          arr := dst.arr.take pos ++ src.take (min (dst.len - pos) src.length)
            ++ dst.arr.drop (pos + min (dst.len - pos) src.length) }
  else .error .outOfRange

/-- The method `appendBytes`. -/
def appendBytes (c : binyCache) (p : Bytes) : Except Fault binyCache := do
  let n := c.buf.len
  let total := n + p.length
  let c ←
    if total > c.buf.cap then do
      let newSize := total * 2
      let newBuf ← makeSlice total newSize
      let newBuf ← copyInto newBuf 0 c.buf.bytes
      pure { c with buf := newBuf }
    else pure c
  let b ← reslice c.buf total
  let b ← copyInto b n p
  pure { c with buf := b }

/-! ## Further vocabulary of the specification -/

/-- The number of leading draws divisible by 4 among the first `n` draws of the
stream. -/
def leadingDivisible : Nat → (Nat → Nat) → Nat
  | 0, _ => 0
  | n + 1, rnd => if rnd 0 % 4 = 0 then 1 + leadingDivisible n (fun j => rnd (j + 1)) else 0

/-- The index vector `es'` is `es` with a record of height `H`, key length `kl` and
value length `vl` appended, and spliced in behind the nodes `p 0`, ..., `p (H - 1)`:
those nodes point to the new record, which took over their old pointers, and
nothing else of `es` has changed. -/
structure Spliced (es es' : List Nat) (H : Nat) (p : Nat → Nat) (kl vl : Nat) : Prop where
  len : es'.length = es.length + nNext + H
  rec_key : es'.getD (es.length + nKey) 0 = kl
  rec_val : es'.getD (es.length + nVal) 0 = vl
  rec_hgt : es'.getD (es.length + nHeight) 0 = H
  pred_next : ∀ l, l < H → es'.getD (p l + l + nNext) 0 = es.length
  new_next : ∀ l, l < H → es'.getD (es.length + nNext + l) 0 = es.getD (p l + l + nNext) 0
  frame : ∀ a, a < es.length → (∀ l, l < H → a ≠ p l + l + nNext) → es'.getD a 0 = es.getD a 0

/-- A stream of draws that gives the first two inserted nodes height 2 and every
later one height 1. -/
def tallTwo : Nat → Nat := fun i => if i = 0 ∨ i = 2 then 0 else 1

/-! ## Byte comparison -/

theorem bytesCompare_eq_zero_iff (a b : Bytes) : bytesCompare a b = 0 ↔ a = b := by
  induction a generalizing b with
  | nil => cases b <;> simp [bytesCompare]
  | cons x xs ih =>
    cases b with
    | nil => simp [bytesCompare]
    | cons y ys =>
      simp only [bytesCompare, List.cons.injEq]
      split_ifs with h1 h2
      · have : x ≠ y := by omega
        simp [this]
      · have : x ≠ y := by omega
        simp [this]
      · rw [ih ys]
        have : x = y := by omega
        simp [this]

theorem bytesCompare_flip (a b : Bytes) : bytesCompare a b < 0 ↔ 0 < bytesCompare b a := by
  induction a generalizing b with
  | nil => cases b <;> simp [bytesCompare]
  | cons x xs ih =>
    cases b with
    | nil => simp [bytesCompare]
    | cons y ys =>
      simp only [bytesCompare]
      split_ifs <;> first | omega | exact ih ys

theorem bytesCompare_trans (a b c : Bytes) (h1 : bytesCompare a b < 0)
    (h2 : bytesCompare b c < 0) : bytesCompare a c < 0 := by
  induction a generalizing b c with
  | nil =>
    cases b with
    | nil => simp [bytesCompare] at h1
    | cons y ys =>
      cases c with
      | nil => simp [bytesCompare] at h2
      | cons z zs => simp [bytesCompare]
  | cons x xs ih =>
    cases b with
    | nil => simp [bytesCompare] at h1
    | cons y ys =>
      cases c with
      | nil => simp [bytesCompare] at h2
      | cons z zs =>
        simp only [bytesCompare] at h1 h2 ⊢
        split_ifs at h1 h2 ⊢ <;> first | omega | exact ih ys zs h1 h2

theorem bytesCompare_irrefl (a : Bytes) : ¬ bytesCompare a a < 0 := by
  have := (bytesCompare_eq_zero_iff a a).2 rfl
  omega

/-! ## Checked accesses -/

theorem idx_of_lt {xs : List Nat} {i : Nat} (h : i < xs.length) :
    idx xs i = .ok (xs.getD i 0) := by
  simp [idx, List.getD_eq_getElem?_getD, List.getElem?_eq_getElem h]

theorem idxI_of_lt {xs : List Nat} {i : Nat} (h : i < xs.length) :
    idxI xs (i : Int) = .ok (xs.getD i 0) := by
  have : ¬ ((i : Int) < 0) := by omega
  simp [idxI, this, idx_of_lt h]

theorem setIdx_of_lt {xs : List Nat} {i : Nat} (v : Nat) (h : i < xs.length) :
    setIdx xs i v = .ok (xs.set i v) := by
  simp [setIdx, h]

theorem setIdxI_of_lt {xs : List Nat} {i : Nat} (v : Nat) (h : i < xs.length) :
    setIdxI xs (i : Int) v = .ok (xs.set i v) := by
  have : ¬ ((i : Int) < 0) := by omega
  simp [setIdxI, this, setIdx_of_lt v h]

theorem sliceOf_of_le {xs : List Nat} {lo n : Nat} (h : lo + n ≤ xs.length) :
    sliceOf xs lo (lo + n) = .ok ((xs.drop lo).take n) := by
  have : lo ≤ lo + n ∧ lo + n ≤ xs.length := ⟨by omega, h⟩
  simp [sliceOf, this]

theorem getD_set_eq {xs : List Nat} {i : Nat} (v : Nat) (h : i < xs.length) :
    (xs.set i v).getD i 0 = v := by
  simp [List.getD_eq_getElem?_getD, List.getElem?_set, h]

theorem getD_set_ne {xs : List Nat} {i j : Nat} (v : Nat) (h : i ≠ j) :
    (xs.set i v).getD j 0 = xs.getD j 0 := by
  simp [List.getD_eq_getElem?_getD, List.getElem?_set, h]

/-! ## The first node of a level -/

theorem firstAt_nil (es : List Nat) (l : Nat) : firstAt es l [] = 0 := rfl

theorem firstAt_cons (es : List Nat) (l y : Nat) (L : List Nat) :
    firstAt es l (y :: L) = if l < hgt es y then y else firstAt es l L := by
  by_cases h : l < hgt es y <;> simp [firstAt, List.find?, h]

theorem firstAt_append_of_low (es : List Nat) (l : Nat) (B L : List Nat)
    (h : ∀ y ∈ B, hgt es y ≤ l) : firstAt es l (B ++ L) = firstAt es l L := by
  induction B with
  | nil => rfl
  | cons y B ih =>
    have hy : ¬ l < hgt es y := by
      have := h y (List.mem_cons_self _ _); omega
    rw [List.cons_append, firstAt_cons, if_neg hy]
    exact ih (fun z hz => h z (List.mem_cons_of_mem _ hz))

theorem firstAt_append_of_mem (es : List Nat) (l : Nat) (B L : List Nat) (y : Nat)
    (hy : y ∈ B) (hl : l < hgt es y) : firstAt es l (B ++ L) = firstAt es l B := by
  induction B with
  | nil => simp at hy
  | cons z B ih =>
    rw [List.cons_append, firstAt_cons, firstAt_cons]
    by_cases hz : l < hgt es z
    · simp [hz]
    · simp only [hz, if_false]
      rcases List.mem_cons.1 hy with rfl | h
      · exact absurd hl hz
      · exact ih h

/-- Either no node of `B` reaches level `l`, or `B` splits at its first such node. -/
theorem firstAt_cases (es : List Nat) (l : Nat) (B : List Nat) :
    (∀ y ∈ B, hgt es y ≤ l) ∨
    ∃ R1 y R2, B = R1 ++ y :: R2 ∧ l < hgt es y ∧ (∀ z ∈ R1, hgt es z ≤ l) ∧
      firstAt es l B = y := by
  induction B with
  | nil => left; simp
  | cons z B ih =>
    by_cases hz : l < hgt es z
    · right
      exact ⟨[], z, B, rfl, hz, by simp, by rw [firstAt_cons, if_pos hz]⟩
    · rcases ih with h | ⟨R1, y, R2, rfl, hy, hR, hf⟩
      · left
        intro y hy
        rcases List.mem_cons.1 hy with rfl | h'
        · omega
        · exact h y h'
      · right
        refine ⟨z :: R1, y, R2, rfl, hy, ?_, ?_⟩
        · intro w hw
          rcases List.mem_cons.1 hw with rfl | h'
          · omega
          · exact hR w h'
        · rw [firstAt_cons, if_neg hz]; exact hf

/-! ## One iteration of the scan -/

theorem ok_bind {α β : Type} (a : α) (f : α → Except Fault β) :
    (Except.ok a >>= f) = f a := rfl

theorem pure_eq_ok {α : Type} (a : α) : (pure a : Except Fault α) = Except.ok a := rfl

theorem cast_slot (x h : Nat) :
    ((x : Int) + (nNext : Int) + (h : Int)) = ((x + nNext + h : Nat) : Int) := by
  push_cast; rfl

/-- One iteration whose next node is a real node with its record and key in range. -/
theorem scanLoop_node {es : List Nat} {cache k : Bytes} {record : Bool} {fuel x h : Nat}
    {prev : List Nat} {y : Nat}
    (hx : x + nNext + h < es.length) (hn : nxt es x h = y) (hy0 : y ≠ 0)
    (hy1 : y + nKey < es.length)
    (hfit : es.getD y 0 + es.getD (y + nKey) 0 ≤ cache.length)
    (hp : h < prev.length) :
    scanLoop es cache k record (fuel + 1) x (h : Int) prev
      = if bytesCompare (keyAt es cache y) k < 0 then scanLoop es cache k record fuel y h prev
        else if bytesCompare (keyAt es cache y) k = 0 then
          .ok (if record then prev.set h x else prev, y, true)
        else if h = 0 then .ok (if record then prev.set h x else prev, y, false)
        else scanLoop es cache k record fuel x ((h - 1 : Nat) : Int)
          (if record then prev.set h x else prev) := by
  have hn' : es.getD (x + nNext + h) 0 = y := hn
  have hy : y < es.length := by omega
  have hcast : h ≠ 0 → ((h : Int) - 1) = ((h - 1 : Nat) : Int) := by intro h0; omega
  rw [scanLoop, cast_slot, idxI_of_lt hx, hn']
  simp only [ok_bind, ne_eq, hy0, not_false_eq_true, if_true]
  rw [idx_of_lt hy, idx_of_lt hy1]
  simp only [ok_bind]
  rw [sliceOf_of_le hfit]
  simp only [ok_bind, pure_eq_ok]
  have hkey : List.take (es.getD (y + nKey) 0) (List.drop (es.getD y 0) cache)
      = keyAt es cache y := rfl
  rw [hkey, setIdxI_of_lt _ hp]
  generalize bytesCompare (keyAt es cache y) k = c
  by_cases c1 : c < 0
  · simp only [c1, if_true]
  · by_cases c2 : c = 0
    · cases record <;> simp [ok_bind, c2]
    · by_cases h0 : h = 0
      · subst h0
        cases record <;> simp [ok_bind, c1, c2]
      · cases record <;> simp [ok_bind, c1, c2, h0, hcast h0]

/-- One iteration at the end of a level. -/
theorem scanLoop_end {es : List Nat} {cache k : Bytes} {record : Bool} {fuel x h : Nat}
    {prev : List Nat}
    (hx : x + nNext + h < es.length) (hn : nxt es x h = 0) (hp : h < prev.length) :
    scanLoop es cache k record (fuel + 1) x (h : Int) prev
      = if h = 0 then .ok (if record then prev.set h x else prev, 0, false)
        else scanLoop es cache k record fuel x ((h - 1 : Nat) : Int)
          (if record then prev.set h x else prev) := by
  have hn' : es.getD (x + nNext + h) 0 = 0 := hn
  have hcast : h ≠ 0 → ((h : Int) - 1) = ((h - 1 : Nat) : Int) := by intro h0; omega
  rw [scanLoop, cast_slot, idxI_of_lt hx, hn']
  simp only [ok_bind, ne_eq, not_true_eq_false, if_false, pure_eq_ok]
  rw [setIdxI_of_lt _ hp]
  by_cases h0 : h = 0
  · subst h0
    cases record <;> simp [ok_bind]
  · cases record <;> simp [ok_bind, h0, hcast h0]

/-- One iteration that finds the end of the level or a larger key. -/
theorem scanLoop_descend {es : List Nat} {cache k : Bytes} {record : Bool} {fuel x h : Nat}
    {prev : List Nat} {y : Nat}
    (hx : x + nNext + h < es.length) (hn : nxt es x h = y)
    (hy : y = 0 ∨ (y + nKey < es.length ∧ es.getD y 0 + es.getD (y + nKey) 0 ≤ cache.length ∧
      0 < bytesCompare (keyAt es cache y) k))
    (hp : h < prev.length) :
    scanLoop es cache k record (fuel + 1) x (h : Int) prev
      = if h = 0 then .ok (if record then prev.set h x else prev, y, false)
        else scanLoop es cache k record fuel x ((h - 1 : Nat) : Int)
          (if record then prev.set h x else prev) := by
  by_cases hy0 : y = 0
  · subst hy0
    exact scanLoop_end hx hn hp
  · rcases hy with hy | ⟨hy1, hfit, hc⟩
    · exact absurd hy hy0
    rw [scanLoop_node hx hn hy0 hy1 hfit hp]
    have c1 : ¬ bytesCompare (keyAt es cache y) k < 0 := by omega
    have c2 : ¬ bytesCompare (keyAt es cache y) k = 0 := by omega
    simp only [c1, c2, if_false]

/-! ## The scan on a well-formed skip list -/

theorem firstAt_zero_or_mem (es : List Nat) (l : Nat) (L : List Nat) :
    firstAt es l L = 0 ∨ (firstAt es l L ∈ L ∧ l < hgt es (firstAt es l L)) := by
  induction L with
  | nil => left; rfl
  | cons y L ih =>
    rw [firstAt_cons]
    by_cases hy : l < hgt es y
    · right; simp [hy]
    · simp only [hy, if_false]
      rcases ih with h | ⟨h1, h2⟩
      · left; exact h
      · right; exact ⟨List.mem_cons_of_mem _ h1, h2⟩

theorem split_mem {lo A B : List Nat} {x : Nat} (h : 0 :: lo = A ++ x :: B) :
    (x = 0 ∨ x ∈ lo) ∧ ∀ y ∈ B, y ∈ lo := by
  rcases List.cons_eq_append_iff.1 h with ⟨rfl, h2⟩ | ⟨A', rfl, h2⟩
  · simp only [List.cons.injEq] at h2
    obtain ⟨rfl, rfl⟩ := h2
    exact ⟨Or.inl rfl, fun y hy => hy⟩
  · subst h2
    exact ⟨Or.inr (by simp), fun y hy => by simp [hy]⟩

/-- The slot of level `h` of a node of `0 :: ns` that takes part in that level is in range. -/
theorem WF.slot_lt {es : List Nat} {cache : Bytes} {mH : Nat} {ns : List Nat}
    (wf : WF es cache mH ns) {x h : Nat} (hx : x = 0 ∨ x ∈ ns) (hh : h < hgt es x) :
    x + nNext + h < es.length := by
  rcases hx with rfl | hx
  · have := wf.count
    have := wf.head_hgt
    simp only [tableHeight, nNext] at *
    omega
  · have := wf.ns_fit x hx
    omega

theorem WF.node_ne_zero {es : List Nat} {cache : Bytes} {mH : Nat} {ns : List Nat}
    (wf : WF es cache mH ns) {y : Nat} (hy : y ∈ ns) : y ≠ 0 := by
  have := wf.ns_ge y hy
  simp only [tableHeight] at this
  omega

theorem WF.key_lt {es : List Nat} {cache : Bytes} {mH : Nat} {ns : List Nat}
    (wf : WF es cache mH ns) {y : Nat} (hy : y ∈ ns) : y + nKey < es.length := by
  have := wf.ns_fit y hy
  simp only [nNext, nKey] at *
  omega

theorem WF.key_fit {es : List Nat} {cache : Bytes} {mH : Nat} {ns : List Nat}
    (wf : WF es cache mH ns) {y : Nat} (hy : y ∈ ns) :
    es.getD y 0 + es.getD (y + nKey) 0 ≤ cache.length := by
  have := wf.data_fit y hy
  omega

theorem scanLoop_spec {es : List Nat} {cache : Bytes} {mH : Nat} {ns : List Nat}
    (wf : WF es cache mH ns) (k : Bytes) (record : Bool) {lo hi : List Nat}
    (hns : ns = lo ++ hi)
    (hlo : ∀ x ∈ lo, bytesCompare (keyAt es cache x) k < 0)
    (hhi : ∀ y ∈ hi, 0 ≤ bytesCompare (keyAt es cache y) k)
    (htl : ∀ y ∈ hi.tail, 0 < bytesCompare (keyAt es cache y) k) :
    ∀ (fuel h x : Nat) (A B prev : List Nat), 0 :: lo = A ++ x :: B → h < hgt es x →
      h < tableHeight → prev.length = tableHeight → B.length + h + 1 ≤ fuel →
      ∃ prev' e m, scanLoop es cache k record fuel x (h : Int) prev = .ok (prev', e, m) ∧
        prev'.length = tableHeight ∧ (record = false → prev' = prev) ∧
        ((∀ y ∈ hi, 0 < bytesCompare (keyAt es cache y) k) → m = false ∧
          (record = true → (∀ l, l ≤ h → IsPred es lo l (prev'.getD l 0)) ∧
            (∀ l, h < l → prev'.getD l 0 = prev.getD l 0))) ∧
        (∀ n, hi.head? = some n → bytesCompare (keyAt es cache n) k = 0 → hgt es n ≤ h + 1 →
          m = true ∧ e = n ∧
          (record = true → (∀ l, l ≤ h → hgt es n ≤ l + 1 → IsPred es lo l (prev'.getD l 0)) ∧
            (∀ l, (h < l ∨ l + 1 < hgt es n) → prev'.getD l 0 = prev.getD l 0))) := by
  intro fuel
  induction fuel with
  | zero => intro h x A B prev _ _ _ _ hf; omega
  | succ fuel ih =>
    intro h x A B prev hsplit hlt h12 hprev hfuel
    obtain ⟨hxmem, hBlo⟩ := split_mem hsplit
    have hlo_ns : ∀ y ∈ lo, y ∈ ns := fun y hy => by rw [hns]; exact List.mem_append_left _ hy
    have hhi_ns : ∀ y ∈ hi, y ∈ ns := fun y hy => by rw [hns]; exact List.mem_append_right _ hy
    have hx_ns : x = 0 ∨ x ∈ ns := hxmem.imp id (hlo_ns x)
    have hslot := wf.slot_lt hx_ns hlt
    have hp : h < prev.length := by rw [hprev]; exact h12
    have hnext : nxt es x h = firstAt es h (B ++ hi) := by
      apply wf.links A x (B ++ hi) _ h hlt
      rw [hns, ← List.cons_append, hsplit]
      simp
    rcases firstAt_cases es h B with hB | ⟨R1, y, R2, hBeq, hy, hR1, hfy⟩
    · -- no further node on this level below the key
      rw [firstAt_append_of_low es h B hi hB] at hnext
      have hpred : IsPred es lo h x := ⟨A, B, hsplit, hlt, hB⟩
      have hp1len : (if record then prev.set h x else prev).length = tableHeight := by
        cases record <;> simp [hprev]
      have hp1f : record = false → (if record then prev.set h x else prev) = prev := by
        intro hr; simp [hr]
      have hp1h : record = true → (if record then prev.set h x else prev).getD h 0 = x := by
        intro hr; simp only [hr, if_true]; exact getD_set_eq x hp
      have hp1o : ∀ l, l ≠ h → (if record then prev.set h x else prev).getD l 0 = prev.getD l 0 := by
        intro l hl
        cases record
        · rfl
        · simp only [if_true]; exact getD_set_ne x (Ne.symm hl)
      have hhead : ∀ n, hi.head? = some n → h < hgt es n → firstAt es h hi = n := by
        intro n hn hh
        cases hi with
        | nil => simp at hn
        | cons a tl =>
          simp only [List.head?_cons, Option.some.injEq] at hn
          subst hn
          rw [firstAt_cons, if_pos hh]
      have hhead_mem : ∀ n, hi.head? = some n → n ∈ hi := by
        intro n hn
        cases hi with
        | nil => simp at hn
        | cons a tl =>
          simp only [List.head?_cons, Option.some.injEq] at hn
          subst hn
          exact List.mem_cons_self _ _
      have hmem_cases : ∀ y ∈ hi, bytesCompare (keyAt es cache y) k = 0 → hi.head? = some y := by
        intro y hy hc
        cases hi with
        | nil => simp at hy
        | cons a tl =>
          rcases List.mem_cons.1 hy with rfl | h'
          · rfl
          · have := htl y h'
            omega
      rcases firstAt_zero_or_mem es h hi with hz | ⟨hmem, hlt'⟩
      on_goal 2 =>
        by_cases hc0 : bytesCompare (keyAt es cache (firstAt es h hi)) k = 0
        · -- the key is found on this level
          have hyns := hhi_ns _ hmem
          rw [scanLoop_node hslot hnext (wf.node_ne_zero hyns) (wf.key_lt hyns) (wf.key_fit hyns) hp]
          have c1 : ¬ bytesCompare (keyAt es cache (firstAt es h hi)) k < 0 := by omega
          simp only [c1, hc0, if_true, if_false]
          refine ⟨_, _, _, rfl, hp1len, hp1f, ?_, ?_⟩
          · intro hall
            have := hall _ hmem
            omega
          · intro n hn hcn hhn
            have hyn : firstAt es h hi = n := by
              have := hmem_cases _ hmem hc0
              rw [hn] at this
              exact (Option.some.inj this).symm
            refine ⟨rfl, hyn, ?_⟩
            intro hr
            rw [hyn] at hlt'
            constructor
            · intro l hl hnl
              have : l = h := by omega
              subst this
              rw [hp1h hr]; exact hpred
            · intro l hl
              apply hp1o
              omega
      all_goals
        -- the level ends here, or continues with a larger key
        have hdesc : firstAt es h hi = 0 ∨ (firstAt es h hi + nKey < es.length ∧
            es.getD (firstAt es h hi) 0 + es.getD (firstAt es h hi + nKey) 0 ≤ cache.length ∧
            0 < bytesCompare (keyAt es cache (firstAt es h hi)) k) := by
          first
          | exact Or.inl hz
          | right
            have hyns := hhi_ns _ hmem
            have := hhi _ hmem
            exact ⟨wf.key_lt hyns, wf.key_fit hyns, by omega⟩
        have hno : ∀ n, hi.head? = some n → bytesCompare (keyAt es cache n) k = 0 →
            ¬ h < hgt es n := by
          intro n hn hcn hh
          have hf := hhead n hn hh
          rcases hdesc with h0 | ⟨_, _, hpos⟩
          · rw [hf] at h0
            exact wf.node_ne_zero (hhi_ns _ (hhead_mem n hn)) h0
          · rw [hf] at hpos
            omega
        rw [scanLoop_descend hslot hnext hdesc hp]
        by_cases h0 : h = 0
        · simp only [h0, if_true]
          subst h0
          refine ⟨_, _, _, rfl, hp1len, hp1f, ?_, ?_⟩
          · intro _
            refine ⟨rfl, fun hr => ⟨?_, ?_⟩⟩
            · intro l hl
              have : l = 0 := by omega
              subst this
              rw [hp1h hr]; exact hpred
            · intro l hl
              apply hp1o
              omega
          · intro n hn hcn hhn
            exfalso
            apply hno n hn hcn
            have := wf.hgt_pos n (hhi_ns _ (hhead_mem n hn))
            omega
        · simp only [h0, if_false]
          obtain ⟨prev', e, m, hrun, hlen, hrec, hnm, hm⟩ :=
            ih (h - 1) x A B (if record then prev.set h x else prev) hsplit (by omega)
              (by omega) hp1len (by omega)
          refine ⟨prev', e, m, hrun, hlen, fun hr => (hrec hr).trans (hp1f hr), ?_, ?_⟩
          · intro hall
            obtain ⟨hm0, hpost⟩ := hnm hall
            refine ⟨hm0, fun hr => ?_⟩
            obtain ⟨hP, hU⟩ := hpost hr
            constructor
            · intro l hl
              by_cases hlh : l = h
              · subst hlh
                rw [hU l (by omega), hp1h hr]; exact hpred
              · exact hP l (by omega)
            · intro l hl
              rw [hU l (by omega)]
              exact hp1o l (by omega)
          · intro n hn hcn hhn
            have hnh := hno n hn hcn
            obtain ⟨hm1, he, hpost⟩ := hm n hn hcn (by omega)
            refine ⟨hm1, he, fun hr => ?_⟩
            obtain ⟨hP, hU⟩ := hpost hr
            constructor
            · intro l hl hnl
              by_cases hlh : l = h
              · subst hlh
                rw [hU l (by omega), hp1h hr]; exact hpred
              · exact hP l (by omega) hnl
            · intro l hl
              have hlh : l ≠ h := by omega
              rw [hU l (by omega)]
              exact hp1o l hlh
    · -- a further node below the key: move forward
      have hyB : y ∈ B := by rw [hBeq]; simp
      have hylo := hBlo y hyB
      have hyns := hlo_ns y hylo
      rw [firstAt_append_of_mem es h B hi y hyB hy, hfy] at hnext
      rw [scanLoop_node hslot hnext (wf.node_ne_zero hyns) (wf.key_lt hyns) (wf.key_fit hyns) hp]
      simp only [hlo y hylo, if_true]
      have hlenB : B.length = R1.length + R2.length + 1 := by rw [hBeq]; simp; omega
      exact ih h y (A ++ x :: R1) R2 prev (by rw [hsplit, hBeq]; simp) hy h12 hprev (by omega)

/-- A strictly sorted list of nodes splits around any key. -/
theorem sorted_split (es : List Nat) (cache k : Bytes) :
    ∀ ns : List Nat,
      ns.Pairwise (fun a b => bytesCompare (keyAt es cache a) (keyAt es cache b) < 0) →
      ∃ lo hi, ns = lo ++ hi ∧ (∀ x ∈ lo, bytesCompare (keyAt es cache x) k < 0) ∧
        (∀ y ∈ hi, 0 ≤ bytesCompare (keyAt es cache y) k) ∧
        (∀ y ∈ hi.tail, 0 < bytesCompare (keyAt es cache y) k) := by
  intro ns
  induction ns with
  | nil => intro _; exact ⟨[], [], rfl, by simp, by simp, by simp⟩
  | cons a rest ih =>
    intro hs
    rw [List.pairwise_cons] at hs
    by_cases ha : bytesCompare (keyAt es cache a) k < 0
    · obtain ⟨lo, hi, hsplit, hlo, hhi, htl⟩ := ih hs.2
      refine ⟨a :: lo, hi, by rw [hsplit]; rfl, ?_, hhi, htl⟩
      intro x hx
      rcases List.mem_cons.1 hx with rfl | h
      · exact ha
      · exact hlo x h
    · have hrest : ∀ y ∈ rest, 0 < bytesCompare (keyAt es cache y) k := by
        intro y hy
        have hay := hs.1 y hy
        by_contra hc
        have hle : bytesCompare (keyAt es cache y) k ≤ 0 := by omega
        by_cases h1 : bytesCompare (keyAt es cache y) k < 0
        · exact ha (bytesCompare_trans _ _ _ hay h1)
        · have h2 : bytesCompare (keyAt es cache y) k = 0 := by omega
          rw [(bytesCompare_eq_zero_iff _ _).1 h2] at hay
          exact ha hay
      refine ⟨[], a :: rest, rfl, by simp, ?_, hrest⟩
      intro y hy
      rcases List.mem_cons.1 hy with rfl | h
      · omega
      · have := hrest y h; omega

theorem scanFuel_ge {s : store} {ns : List Nat} (wf : WF s.entries s.cache s.mHeight ns)
    (n : Nat) (hn : n ≤ ns.length) : n + (s.mHeight - 1) + 1 ≤ scanFuel s := by
  have h1 := wf.count
  have h2 := wf.mH_pos
  unfold scanFuel
  have h3 : 1 * (s.mHeight + s.entries.length + nNext) ≤
      s.entries.length * (s.mHeight + s.entries.length + nNext) :=
    Nat.mul_le_mul_right _ (by simp only [tableHeight] at h1; omega)
  simp only [tableHeight] at h1
  omega

theorem start_level {s : store} (h : 1 ≤ s.mHeight) :
    ((s.mHeight : Int) - 1) = ((s.mHeight - 1 : Nat) : Int) := by omega

/-- The scan for a key that no node holds. -/
theorem scanEntries_miss {s : store} {ns : List Nat} (hv : Valid s ns) (k : Bytes)
    (record : Bool) (hk : ∀ n ∈ ns, keyAt s.entries s.cache n ≠ k) :
    ∃ prev' e lo hi, scanEntries s k record = .ok ({ s with prevEntry := prev' }, e, false) ∧
      prev'.length = tableHeight ∧ (record = false → prev' = s.prevEntry) ∧
      ns = lo ++ hi ∧ (∀ x ∈ lo, bytesCompare (keyAt s.entries s.cache x) k < 0) ∧
      (∀ y ∈ hi, 0 < bytesCompare (keyAt s.entries s.cache y) k) ∧
      (record = true → (∀ l, l < s.mHeight → IsPred s.entries lo l (prev'.getD l 0)) ∧
        (∀ l, s.mHeight ≤ l → prev'.getD l 0 = s.prevEntry.getD l 0)) := by
  obtain ⟨wf, hprev⟩ := hv
  obtain ⟨lo, hi, hsplit, hlo, hhi, htl⟩ := sorted_split s.entries s.cache k ns wf.sorted
  have hhi' : ∀ y ∈ hi, 0 < bytesCompare (keyAt s.entries s.cache y) k := by
    intro y hy
    have h1 := hhi y hy
    have h2 : bytesCompare (keyAt s.entries s.cache y) k ≠ 0 := by
      intro h0
      exact hk y (by rw [hsplit]; exact List.mem_append_right _ hy)
        ((bytesCompare_eq_zero_iff _ _).1 h0)
    omega
  have hlen : lo.length ≤ ns.length := by rw [hsplit]; simp
  obtain ⟨prev', e, m, hrun, hplen, hrec, hnm, -⟩ :=
    scanLoop_spec wf k record hsplit hlo hhi htl (scanFuel s) (s.mHeight - 1) 0 [] lo s.prevEntry
      rfl (by rw [wf.head_hgt]; have := wf.mH_le; have := wf.mH_pos; omega)
      (by have := wf.mH_le; have := wf.mH_pos; omega) hprev (scanFuel_ge wf _ hlen)
  obtain ⟨hm, hpost⟩ := hnm hhi'
  subst hm
  refine ⟨prev', e, lo, hi, ?_, hplen, hrec, hsplit, hlo, hhi', ?_⟩
  · unfold scanEntries
    rw [start_level wf.mH_pos, hrun]
    rfl
  · intro hr
    obtain ⟨hP, hU⟩ := hpost hr
    exact ⟨fun l hl => hP l (by omega), fun l hl => hU l (by have := wf.mH_pos; omega)⟩

/-- The scan for the key of a node. -/
theorem scanEntries_hit {s : store} {ns : List Nat} (hv : Valid s ns) (record : Bool)
    {n : Nat} (hn : n ∈ ns) :
    ∃ prev' lo hi, scanEntries s (keyAt s.entries s.cache n) record
        = .ok ({ s with prevEntry := prev' }, n, true) ∧
      prev'.length = tableHeight ∧ (record = false → prev' = s.prevEntry) ∧
      ns = lo ++ n :: hi ∧
      (record = true →
        (∀ l, l < s.mHeight → hgt s.entries n ≤ l + 1 → IsPred s.entries lo l (prev'.getD l 0)) ∧
        (∀ l, (s.mHeight ≤ l ∨ l + 1 < hgt s.entries n) →
          prev'.getD l 0 = s.prevEntry.getD l 0)) := by
  obtain ⟨wf, hprev⟩ := hv
  obtain ⟨lo, hi, hsplit, hlo, hhi, htl⟩ :=
    sorted_split s.entries s.cache (keyAt s.entries s.cache n) ns wf.sorted
  have hnhi : n ∈ hi := by
    rw [hsplit] at hn
    rcases List.mem_append.1 hn with h | h
    · exact absurd (hlo n h) (bytesCompare_irrefl _)
    · exact h
  obtain ⟨hi', rfl⟩ : ∃ hi', hi = n :: hi' := by
    cases hi with
    | nil => simp at hnhi
    | cons a tl =>
      rcases List.mem_cons.1 hnhi with rfl | h
      · exact ⟨tl, rfl⟩
      · have := htl n h
        rw [(bytesCompare_eq_zero_iff _ _).2 rfl] at this
        omega
  have hlen : lo.length ≤ ns.length := by rw [hsplit]; simp
  obtain ⟨prev', e, m, hrun, hplen, hrec, -, hm⟩ :=
    scanLoop_spec wf (keyAt s.entries s.cache n) record hsplit hlo hhi htl (scanFuel s)
      (s.mHeight - 1) 0 [] lo s.prevEntry
      rfl (by rw [wf.head_hgt]; have := wf.mH_le; have := wf.mH_pos; omega)
      (by have := wf.mH_le; have := wf.mH_pos; omega) hprev (scanFuel_ge wf _ hlen)
  obtain ⟨hm1, he, hpost⟩ := hm n rfl ((bytesCompare_eq_zero_iff _ _).2 rfl)
    (by have := wf.hgt_le n hn; have := wf.mH_pos; omega)
  subst hm1 he
  refine ⟨prev', lo, hi', ?_, hplen, hrec, hsplit, ?_⟩
  · unfold scanEntries
    rw [start_level wf.mH_pos, hrun]
    rfl
  · intro hr
    obtain ⟨hP, hU⟩ := hpost hr
    refine ⟨fun l hl hnl => hP l (by omega) hnl, fun l hl => hU l ?_⟩
    have := wf.mH_pos
    omega

/-! ## Reads on a well-formed skip list -/

theorem store_eta (s : store) : { s with prevEntry := s.prevEntry } = s := by
  cases s; rfl

theorem readLock_hit {s : store} {ns : List Nat} (hv : Valid s ns) {n : Nat} (hn : n ∈ ns) :
    readLock s (keyAt s.entries s.cache n)
      = .ok (s, some (valAt s.entries s.cache n), none) := by
  obtain ⟨prev', lo, hi, hrun, -, hrec, -, -⟩ := scanEntries_hit hv false hn
  rw [hrec rfl, store_eta] at hrun
  have wf := hv.1
  have hfit := wf.ns_fit n hn
  have hdat := wf.data_fit n hn
  have h0 : n < s.entries.length := by simp only [nNext] at *; omega
  have h1 : n + nKey < s.entries.length := by simp only [nKey, nNext] at *; omega
  have h2 : n + nVal < s.entries.length := by simp only [nVal, nNext] at *; omega
  unfold readLock
  rw [hrun]
  simp only [ok_bind, if_true]
  rw [idx_of_lt h0, ok_bind, idx_of_lt h1, ok_bind, idx_of_lt h2, ok_bind, sliceOf_of_le hdat]
  rfl

theorem readLock_miss {s : store} {ns : List Nat} (hv : Valid s ns) (k : Bytes)
    (hk : ∀ n ∈ ns, keyAt s.entries s.cache n ≠ k) :
    readLock s k = .ok (s, none, some error.errKeyNotFound) := by
  obtain ⟨prev', e, lo, hi, hrun, -, hrec, -⟩ := scanEntries_miss hv k false hk
  rw [hrec rfl, store_eta] at hrun
  unfold readLock
  rw [hrun]
  rfl

theorem has_miss {s : store} {ns : List Nat} (hv : Valid s ns) (k : Bytes)
    (hk : ∀ n ∈ ns, keyAt s.entries s.cache n ≠ k) :
    has s k = .ok (s, false) := by
  obtain ⟨prev', e, lo, hi, hrun, -, hrec, -⟩ := scanEntries_miss hv k false hk
  rw [hrec rfl, store_eta] at hrun
  unfold has
  rw [hrun]
  rfl

theorem has_hit {s : store} {ns : List Nat} (hv : Valid s ns) {n : Nat} (hn : n ∈ ns) :
    has s (keyAt s.entries s.cache n) = .ok (s, true) := by
  obtain ⟨prev', lo, hi, hrun, -, hrec, -, -⟩ := scanEntries_hit hv false hn
  rw [hrec rfl, store_eta] at hrun
  unfold has
  rw [hrun]
  rfl

theorem Read_of_ne {s : store} {k : Bytes} (hk : k ≠ []) : Read s k = readLock s k := by
  have : k.length ≠ 0 := by simpa using hk
  simp [Read, this]

theorem Write_of_ne {s : store} {k : Bytes} (v : Bytes) (hk : k ≠ []) :
    Write s k v = writeLock s k v := by
  have : k.length ≠ 0 := by simpa using hk
  simp [Write, this]

/-! ## Frame lemmas -/

theorem WF.region_disj {es : List Nat} {cache : Bytes} {mH : Nat} {ns : List Nat}
    (wf : WF es cache mH ns) {x y a : Nat} (hx : x = 0 ∨ x ∈ ns) (hy : y = 0 ∨ y ∈ ns)
    (hax : x ≤ a ∧ a < x + nNext + hgt es x) (hay : y ≤ a ∧ a < y + nNext + hgt es y) :
    x = y := by
  have h0 := wf.head_hgt
  simp only [tableHeight, nNext] at *
  rcases hx with rfl | hx <;> rcases hy with rfl | hy
  · rfl
  · have := wf.ns_ge y hy
    simp only [tableHeight] at this
    omega
  · have := wf.ns_ge x hx
    simp only [tableHeight] at this
    omega
  · rcases Nat.lt_trichotomy x y with h | h | h
    · have := wf.disj x hx y hy h
      simp only [nNext] at this
      omega
    · exact h
    · have := wf.disj y hy x hx h
      simp only [nNext] at this
      omega

theorem firstAt_congr {es es' : List Nat} (l : Nat) (L : List Nat)
    (h : ∀ y ∈ L, hgt es' y = hgt es y) : firstAt es' l L = firstAt es l L := by
  induction L with
  | nil => rfl
  | cons y L ih =>
    rw [firstAt_cons, firstAt_cons, h y (List.mem_cons_self _ _),
      ih (fun z hz => h z (List.mem_cons_of_mem _ hz))]

theorem keyAt_congr {es es' : List Nat} {cache cache' : Bytes} {n : Nat}
    (h0 : es'.getD n 0 = es.getD n 0) (h1 : es'.getD (n + nKey) 0 = es.getD (n + nKey) 0)
    (hfit : es.getD n 0 + es.getD (n + nKey) 0 ≤ cache.length)
    (hc : ∃ z, cache' = cache ++ z) :
    keyAt es' cache' n = keyAt es cache n := by
  obtain ⟨z, rfl⟩ := hc
  unfold keyAt
  rw [h0, h1, List.drop_append_of_le_length (by omega),
    List.take_append_of_le_length (by rw [List.length_drop]; omega)]

theorem valAt_congr {es es' : List Nat} {cache cache' : Bytes} {n : Nat}
    (h0 : es'.getD n 0 = es.getD n 0) (h1 : es'.getD (n + nKey) 0 = es.getD (n + nKey) 0)
    (h2 : es'.getD (n + nVal) 0 = es.getD (n + nVal) 0)
    (hfit : es.getD n 0 + es.getD (n + nKey) 0 + es.getD (n + nVal) 0 ≤ cache.length)
    (hc : ∃ z, cache' = cache ++ z) :
    valAt es' cache' n = valAt es cache n := by
  obtain ⟨z, rfl⟩ := hc
  unfold valAt
  rw [h0, h1, h2, List.drop_append_of_le_length (by omega),
    List.take_append_of_le_length (by rw [List.length_drop]; omega)]

theorem keyAt_length {es : List Nat} {cache : Bytes} {n : Nat}
    (hfit : es.getD n 0 + es.getD (n + nKey) 0 ≤ cache.length) :
    (keyAt es cache n).length = es.getD (n + nKey) 0 := by
  unfold keyAt
  rw [List.length_take, List.length_drop]
  omega

theorem valAt_length {es : List Nat} {cache : Bytes} {n : Nat}
    (hfit : es.getD n 0 + es.getD (n + nKey) 0 + es.getD (n + nVal) 0 ≤ cache.length) :
    (valAt es cache n).length = es.getD (n + nVal) 0 := by
  unfold valAt
  rw [List.length_take, List.length_drop]
  omega

/-- Well-formedness only depends on the records of the nodes and on their bytes. -/
theorem WF.congr {es es' : List Nat} {cache cache' : Bytes} {mH mH' : Nat} {ns : List Nat}
    (wf : WF es cache mH ns) (hlen : es.length ≤ es'.length)
    (hmH : mH ≤ mH') (hmH' : mH' ≤ tableHeight)
    (hh : ∀ x, (x = 0 ∨ x ∈ ns) → hgt es' x = hgt es x)
    (hdata : ∀ n ∈ ns, es'.getD n 0 + es'.getD (n + nKey) 0 + es'.getD (n + nVal) 0
      ≤ cache'.length)
    (hkey : ∀ n ∈ ns, keyAt es' cache' n = keyAt es cache n)
    (hnxt : ∀ x, (x = 0 ∨ x ∈ ns) → ∀ l, l < hgt es x → nxt es' x l = nxt es x l) :
    WF es' cache' mH' ns := by
  have hsub : ∀ A x B, 0 :: ns = A ++ x :: B → (x = 0 ∨ x ∈ ns) ∧ ∀ y ∈ B, y ∈ ns :=
    fun A x B h => split_mem h
  refine
    { mH_pos := le_trans wf.mH_pos hmH
      mH_le := hmH'
      head_hgt := by rw [hh 0 (Or.inl rfl)]; exact wf.head_hgt
      count := le_trans wf.count hlen
      ns_ge := wf.ns_ge
      ns_fit := fun n hn => by rw [hh n (Or.inr hn)]; exact le_trans (wf.ns_fit n hn) hlen
      hgt_pos := fun n hn => by rw [hh n (Or.inr hn)]; exact wf.hgt_pos n hn
      hgt_le := fun n hn => by rw [hh n (Or.inr hn)]; exact le_trans (wf.hgt_le n hn) hmH
      data_fit := hdata
      disj := fun n hn n' hn' h => by rw [hh n (Or.inr hn)]; exact wf.disj n hn n' hn' h
      sorted := ?_
      links := ?_ }
  · refine wf.sorted.imp_of_mem ?_
    intro a b ha hb hab
    rw [hkey a ha, hkey b hb]; exact hab
  · intro A x B hsplit l hl
    obtain ⟨hx, hB⟩ := hsub A x B hsplit
    rw [hh x hx] at hl
    rw [hnxt x hx l hl, firstAt_congr l B (fun y hy => hh y (Or.inr (hB y hy)))]
    exact wf.links A x B hsplit l hl

/-! ## The update path of `writeLock` -/

theorem keyAt_fresh {es : List Nat} {cache K : Bytes} (v : Bytes) {n : Nat}
    (h0 : es.getD n 0 = cache.length) (h1 : es.getD (n + nKey) 0 = K.length) :
    keyAt es (cache ++ K ++ v) n = K := by
  unfold keyAt
  rw [h0, h1, List.append_assoc, List.drop_left, List.take_left]

theorem valAt_fresh {es : List Nat} {cache K v : Bytes} {n : Nat}
    (h0 : es.getD n 0 = cache.length) (h1 : es.getD (n + nKey) 0 = K.length)
    (h2 : es.getD (n + nVal) 0 = v.length) :
    valAt es (cache ++ K ++ v) n = v := by
  unfold valAt
  rw [h0, h1, h2, ← List.length_append, List.drop_left, List.take_length]

/-- Overwriting the offset and value-length slots of a node keeps the skip list
well formed and only changes the value of that node. -/
theorem WF.update {es : List Nat} {cache : Bytes} {mH : Nat} {ns : List Nat}
    (wf : WF es cache mH ns) {n : Nat} (hn : n ∈ ns) (v : Bytes) :
    WF ((es.set n cache.length).set (n + nVal) v.length) (cache ++ keyAt es cache n ++ v) mH ns ∧
    (∀ x ∈ ns, keyAt ((es.set n cache.length).set (n + nVal) v.length)
      (cache ++ keyAt es cache n ++ v) x = keyAt es cache x) ∧
    (∀ x ∈ ns, x ≠ n → valAt ((es.set n cache.length).set (n + nVal) v.length)
      (cache ++ keyAt es cache n ++ v) x = valAt es cache x) ∧
    valAt ((es.set n cache.length).set (n + nVal) v.length)
      (cache ++ keyAt es cache n ++ v) n = v := by
  have hfit := wf.ns_fit n hn
  have hdat := wf.data_fit n hn
  have hpos := wf.hgt_pos n hn
  have h0 : n < es.length := by simp only [nNext] at *; omega
  have h2 : n + nVal < (es.set n cache.length).length := by
    rw [List.length_set]; simp only [nVal, nNext] at *; omega
  have hklen : (keyAt es cache n).length = es.getD (n + nKey) 0 := keyAt_length (by omega)
  -- the new index vector, slot by slot
  have hget2 : ((es.set n cache.length).set (n + nVal) v.length).getD (n + nVal) 0 = v.length :=
    getD_set_eq _ h2
  have hget0 : ((es.set n cache.length).set (n + nVal) v.length).getD n 0 = cache.length := by
    rw [getD_set_ne _ (by simp only [nVal]; omega)]
    exact getD_set_eq _ h0
  have hget : ∀ a, a ≠ n → a ≠ n + nVal →
      ((es.set n cache.length).set (n + nVal) v.length).getD a 0 = es.getD a 0 := by
    intro a h1 h2
    rw [getD_set_ne _ (Ne.symm h2), getD_set_ne _ (Ne.symm h1)]
  have hget1 : ((es.set n cache.length).set (n + nVal) v.length).getD (n + nKey) 0
      = (keyAt es cache n).length := by
    rw [hklen]
    exact hget _ (by simp only [nKey]; omega) (by simp only [nKey, nVal]; omega)
  -- the records of the other nodes are untouched
  have hsame : ∀ x, (x = 0 ∨ x ∈ ns) → x ≠ n → ∀ a, x ≤ a → a < x + nNext + hgt es x →
      ((es.set n cache.length).set (n + nVal) v.length).getD a 0 = es.getD a 0 := by
    intro x hx hxe a ha1 ha2
    have hne : ∀ b, n ≤ b ∧ b < n + nNext + hgt es n → a ≠ b := by
      intro b hb hab
      subst hab
      exact hxe (wf.region_disj hx (Or.inr hn) ⟨ha1, ha2⟩ hb)
    exact hget _ (hne n ⟨le_refl _, by simp only [nNext]; omega⟩)
      (hne (n + nVal) ⟨by omega, by simp only [nNext, nVal]; omega⟩)
  have hcache : ∃ z, cache ++ keyAt es cache n ++ v = cache ++ z :=
    ⟨keyAt es cache n ++ v, by simp⟩
  have hkey : ∀ x ∈ ns, keyAt ((es.set n cache.length).set (n + nVal) v.length)
      (cache ++ keyAt es cache n ++ v) x = keyAt es cache x := by
    intro x hx
    by_cases hxe : x = n
    · subst hxe
      exact keyAt_fresh v hget0 hget1
    · have hpx := wf.hgt_pos x hx
      have hdx := wf.data_fit x hx
      exact keyAt_congr
        (hsame x (Or.inr hx) hxe x (le_refl _) (by simp only [nNext]; omega))
        (hsame x (Or.inr hx) hxe _ (by omega) (by simp only [nKey, nNext]; omega))
        (by omega) hcache
  refine ⟨?_, hkey, ?_, ?_⟩
  · apply wf.congr (by simp) (le_refl _) wf.mH_le
    · intro x hx
      by_cases hxe : x = n
      · subst hxe
        exact hget _ (by simp only [nHeight]; omega) (by simp only [nHeight, nVal]; omega)
      · rcases hx with rfl | hx
        · exact hsame 0 (Or.inl rfl) hxe _ (by omega)
            (by rw [wf.head_hgt]; simp only [nHeight, nNext, tableHeight]; omega)
        · have hpx := wf.hgt_pos x hx
          exact hsame x (Or.inr hx) hxe _ (by omega) (by simp only [nHeight, nNext]; omega)
    · intro x hx
      by_cases hxe : x = n
      · subst hxe
        rw [hget0, hget2, hget1]
        simp only [List.length_append]
        omega
      · have hpx := wf.hgt_pos x hx
        have hdx := wf.data_fit x hx
        rw [hsame x (Or.inr hx) hxe x (le_refl _) (by simp only [nNext]; omega),
          hsame x (Or.inr hx) hxe (x + nKey) (by omega) (by simp only [nKey, nNext]; omega),
          hsame x (Or.inr hx) hxe (x + nVal) (by omega) (by simp only [nVal, nNext]; omega)]
        simp only [List.length_append]
        omega
    · exact hkey
    · intro x hx l hl
      unfold nxt
      by_cases hxe : x = n
      · subst hxe
        exact hget _ (by simp only [nNext]; omega) (by simp only [nNext, nVal]; omega)
      · exact hsame x hx hxe _ (by omega) (by omega)
  · intro x hx hxe
    have hpx := wf.hgt_pos x hx
    have hdx := wf.data_fit x hx
    exact valAt_congr
      (hsame x (Or.inr hx) hxe x (le_refl _) (by simp only [nNext]; omega))
      (hsame x (Or.inr hx) hxe (x + nKey) (by omega) (by simp only [nKey, nNext]; omega))
      (hsame x (Or.inr hx) hxe (x + nVal) (by omega) (by simp only [nVal, nNext]; omega))
      hdx hcache
  · exact valAt_fresh hget0 hget1 hget2

theorem writeLock_update {s : store} {ns : List Nat} (hv : Valid s ns) {n : Nat} (hn : n ∈ ns)
    (v : Bytes) :
    ∃ s', writeLock s (keyAt s.entries s.cache n) v = .ok (s', none) ∧ Valid s' ns ∧
      s'.txCount = s.txCount ∧
      s'.cacheSize = s.cacheSize + ((v.length : Int) - (valAt s.entries s.cache n).length) ∧
      (∀ x ∈ ns, keyAt s'.entries s'.cache x = keyAt s.entries s.cache x) ∧
      (∀ x ∈ ns, x ≠ n → valAt s'.entries s'.cache x = valAt s.entries s.cache x) ∧
      valAt s'.entries s'.cache n = v ∧
      s'.rnd = s.rnd ∧ s'.growCap = s.growCap ∧ s'.mHeight = s.mHeight ∧
      s'.entries.length = s.entries.length := by
  obtain ⟨prev', lo, hi, hrun, hplen, -, -, -⟩ := scanEntries_hit hv true hn
  obtain ⟨wf, hprev⟩ := hv
  have hfit := wf.ns_fit n hn
  have hdat := wf.data_fit n hn
  have hpos := wf.hgt_pos n hn
  have h0 : n < s.entries.length := by simp only [nNext] at *; omega
  have h2 : n + nVal < s.entries.length := by simp only [nVal, nNext] at *; omega
  have h2' : n + nVal < (s.entries.set n s.cache.length).length := by
    rw [List.length_set]; exact h2
  obtain ⟨wf', hk', hv', hvn⟩ := wf.update hn v
  unfold writeLock
  rw [hrun]
  simp only [ok_bind, if_true, appendCache]
  rw [setIdx_of_lt _ h0, ok_bind, idx_of_lt h2', ok_bind, setIdx_of_lt _ h2', ok_bind]
  refine ⟨_, rfl, ⟨wf', hplen⟩, rfl, ?_, hk', hv', hvn, rfl, rfl, rfl, by simp⟩
  show s.cacheSize + (_ - _) = s.cacheSize + (_ - _)
  rw [getD_set_ne _ (by simp only [nVal]; omega), valAt_length hdat]

/-! ## The loops of the insert path -/

theorem heightLoop_bounds : ∀ (fuel i : Nat) (rnd : Nat → Nat), 1 ≤ i → i ≤ tableHeight →
    1 ≤ (heightLoop fuel i rnd).1 ∧ (heightLoop fuel i rnd).1 ≤ tableHeight := by
  intro fuel
  induction fuel with
  | zero => intro i rnd h1 h2; exact ⟨h1, h2⟩
  | succ fuel ih =>
    intro i rnd h1 h2
    unfold heightLoop
    split_ifs with h3 h4
    · exact ih (i + 1) _ (by omega) (by omega)
    · exact ⟨h1, h2⟩
    · exact ⟨h1, h2⟩

theorem randomTableHeight_bounds (s : store) :
    1 ≤ (randomTableHeight s).2 ∧ (randomTableHeight s).2 ≤ tableHeight :=
  heightLoop_bounds tableHeight 1 s.rnd (le_refl _) (by simp [tableHeight])

theorem resetLoop_spec : ∀ (n i : Nat) (prev : List Nat), i + n ≤ prev.length →
    ∃ prev', resetLoop n i prev = .ok prev' ∧ prev'.length = prev.length ∧
      (∀ l, i ≤ l → l < i + n → prev'.getD l 0 = 0) ∧
      (∀ l, (l < i ∨ i + n ≤ l) → prev'.getD l 0 = prev.getD l 0) := by
  intro n
  induction n with
  | zero =>
    intro i prev _
    exact ⟨prev, rfl, rfl, fun l h1 h2 => by omega, fun l _ => rfl⟩
  | succ n ih =>
    intro i prev h
    have hi : i < prev.length := by omega
    obtain ⟨prev', hrun, hlen, hz, ho⟩ := ih (i + 1) (prev.set i 0) (by simp; omega)
    refine ⟨prev', ?_, ?_, ?_, ?_⟩
    · unfold resetLoop
      rw [setIdx_of_lt _ hi, ok_bind]
      exact hrun
    · rw [hlen]; simp
    · intro l h1 h2
      by_cases hl : l = i
      · subst hl
        rw [ho l (Or.inl (by omega))]
        exact getD_set_eq _ hi
      · exact hz l (by omega) (by omega)
    · intro l hl
      rw [ho l (by omega)]
      exact getD_set_ne _ (by omega)

theorem getD_append_one_lt {es : List Nat} (v : Nat) {a : Nat} (h : a < es.length) :
    (es ++ [v]).getD a 0 = es.getD a 0 :=
  List.getD_append es [v] 0 a h

theorem getD_append_one_eq (es : List Nat) (v : Nat) :
    (es ++ [v]).getD es.length 0 = v := by
  rw [List.getD_append_right es [v] 0 es.length (le_refl _)]
  simp

theorem spliceLoop_spec (entry : Nat) : ∀ (rest : List Nat) (i : Nat) (es : List Nat),
    (∀ j, j < rest.length → rest.getD j 0 + (i + j) + nNext < es.length) →
    (∀ j j', j < rest.length → j' < rest.length → j ≠ j' →
      rest.getD j 0 + (i + j) ≠ rest.getD j' 0 + (i + j')) →
    ∃ es', spliceLoop entry i rest es = .ok es' ∧ es'.length = es.length + rest.length ∧
      (∀ j, j < rest.length → es'.getD (rest.getD j 0 + (i + j) + nNext) 0 = entry) ∧
      (∀ a, a < es.length → (∀ j, j < rest.length → a ≠ rest.getD j 0 + (i + j) + nNext) →
        es'.getD a 0 = es.getD a 0) ∧
      (∀ j, j < rest.length →
        es'.getD (es.length + j) 0 = es.getD (rest.getD j 0 + (i + j) + nNext) 0) := by
  intro rest
  induction rest with
  | nil =>
    intro i es _ _
    exact ⟨es, rfl, rfl, fun j hj => by simp at hj, fun a _ _ => rfl, fun j hj => by simp at hj⟩
  | cons n rest ih =>
    intro i es hb hd
    have hm : n + i + nNext < es.length := by
      have := hb 0 (by simp)
      simpa using this
    have hm1 : n + i + nNext < (es ++ [es.getD (n + i + nNext) 0]).length := by
      simp; omega
    have hb' : ∀ j, j < rest.length → rest.getD j 0 + (i + 1 + j) + nNext < es.length := by
      intro j hj
      have := hb (j + 1) (by simp; omega)
      simp only [List.getD_cons_succ] at this
      omega
    have hd0 : ∀ j, j < rest.length → rest.getD j 0 + (i + 1 + j) ≠ n + i := by
      intro j hj
      have := hd (j + 1) 0 (by simp; omega) (by simp) (by omega)
      simp only [List.getD_cons_succ, List.getD_cons_zero] at this
      omega
    have hlen2 : ((es ++ [es.getD (n + i + nNext) 0]).set (n + i + nNext) entry).length
        = es.length + 1 := by simp
    obtain ⟨es', hrun, hlen, h1, h2, h3⟩ :=
      ih (i + 1) ((es ++ [es.getD (n + i + nNext) 0]).set (n + i + nNext) entry)
        (by
          intro j hj
          have := hb' j hj
          rw [hlen2]
          omega)
        (by
          intro j j' hj hj' hne
          have := hd (j + 1) (j' + 1) (by simp; omega) (by simp; omega) (by omega)
          simp only [List.getD_cons_succ] at this
          omega)
    refine ⟨es', ?_, ?_, ?_, ?_, ?_⟩
    · unfold spliceLoop
      simp only []
      rw [idx_of_lt hm, ok_bind, setIdx_of_lt _ hm1, ok_bind]
      exact hrun
    · rw [hlen, hlen2]; simp; omega
    · intro j hj
      cases j with
      | zero =>
        simp only [List.getD_cons_zero, Nat.add_zero]
        rw [h2 _ (by rw [hlen2]; omega) (fun j hj => by have := hd0 j hj; omega)]
        exact getD_set_eq _ hm1
      | succ j =>
        have := h1 j (by simpa using hj)
        simp only [List.getD_cons_succ]
        rw [← this]
        congr 1
        omega
    · intro a ha hne
      rw [h2 a (by rw [hlen2]; omega) (fun j hj => by
        have := hne (j + 1) (by simp; omega)
        simp only [List.getD_cons_succ] at this
        omega)]
      have hne0 := hne 0 (by simp)
      simp only [List.getD_cons_zero, Nat.add_zero] at hne0
      rw [getD_set_ne _ (Ne.symm hne0)]
      exact getD_append_one_lt _ ha
    · intro j hj
      cases j with
      | zero =>
        simp only [List.getD_cons_zero, Nat.add_zero]
        rw [h2 _ (by rw [hlen2]; omega) (fun j hj => by have := hb' j hj; omega)]
        rw [getD_set_ne _ (by omega)]
        exact getD_append_one_eq _ _
      | succ j =>
        have hj' : j < rest.length := by simpa using hj
        have := h3 j hj'
        rw [hlen2] at this
        simp only [List.getD_cons_succ]
        have e1 : es.length + (j + 1) = es.length + 1 + j := by omega
        have e2 : rest.getD j 0 + (i + (j + 1)) + nNext = rest.getD j 0 + (i + 1 + j) + nNext := by
          omega
        rw [e1, e2, this]
        rw [getD_set_ne _ (by have := hd0 j hj'; omega)]
        exact getD_append_one_lt _ (hb' j hj')

/-! ## The index vector after a splice -/

theorem IsPred.mem {es lo : List Nat} {l p : Nat} (h : IsPred es lo l p) : p = 0 ∨ p ∈ lo := by
  obtain ⟨A, B, hs, -, -⟩ := h
  exact (split_mem hs).1

theorem IsPred.lt {es lo : List Nat} {l p : Nat} (h : IsPred es lo l p) : l < hgt es p := by
  obtain ⟨A, B, -, hl, -⟩ := h
  exact hl

theorem getD_append_rec {es : List Nat} (c0 c1 c2 c3 : Nat) {a : Nat} (h : a < es.length) :
    (es ++ [c0, c1, c2, c3]).getD a 0 = es.getD a 0 :=
  List.getD_append es _ 0 a h

theorem getD_rec (es : List Nat) (c0 c1 c2 c3 : Nat) :
    (es ++ [c0, c1, c2, c3]).getD es.length 0 = c0 ∧
    (es ++ [c0, c1, c2, c3]).getD (es.length + nKey) 0 = c1 ∧
    (es ++ [c0, c1, c2, c3]).getD (es.length + nVal) 0 = c2 ∧
    (es ++ [c0, c1, c2, c3]).getD (es.length + nHeight) 0 = c3 := by
  refine ⟨?_, ?_, ?_, ?_⟩ <;>
  · rw [List.getD_append_right es _ 0 _ (by omega)]
    simp [nKey, nVal, nHeight]

/-- What the index vector holds after the new record has been appended and
spliced in behind the predecessors `p 0`, ..., `p (H - 1)`. -/
theorem splice_fields {es : List Nat} {cache : Bytes} {mH : Nat} {ns lo hi : List Nat}
    (wf : WF es cache mH ns) (hns : ns = lo ++ hi) {H : Nat} {p : Nat → Nat}
    (hpred : ∀ l, l < H → IsPred es lo l (p l)) {c0 c1 c2 : Nat} {es' : List Nat}
    (h1 : ∀ l, l < H → es'.getD (p l + l + nNext) 0 = es.length)
    (h2 : ∀ a, a < es.length + 4 → (∀ l, l < H → a ≠ p l + l + nNext) →
      es'.getD a 0 = (es ++ [c0, c1, c2, H]).getD a 0)
    (h3 : ∀ l, l < H →
      es'.getD (es.length + 4 + l) 0 = (es ++ [c0, c1, c2, H]).getD (p l + l + nNext) 0) :
    (∀ x, (x = 0 ∨ x ∈ ns) → ∀ j, j < 4 → es'.getD (x + j) 0 = es.getD (x + j) 0) ∧
    (∀ x, (x = 0 ∨ x ∈ ns) → ∀ l, l < hgt es x →
      nxt es' x l = if l < H ∧ x = p l then es.length else nxt es x l) ∧
    (es'.getD es.length 0 = c0 ∧ es'.getD (es.length + nKey) 0 = c1 ∧
      es'.getD (es.length + nVal) 0 = c2 ∧ es'.getD (es.length + nHeight) 0 = H) ∧
    (∀ l, l < H → nxt es' es.length l = nxt es (p l) l) := by
  have hpns : ∀ l, l < H → (p l = 0 ∨ p l ∈ ns) := by
    intro l hl
    exact (hpred l hl).mem.imp id (fun h => by rw [hns]; exact List.mem_append_left _ h)
  have hpslot : ∀ l, l < H → p l + l + nNext < es.length := by
    intro l hl
    have := wf.slot_lt (hpns l hl) (hpred l hl).lt
    omega
  have hregion : ∀ x, (x = 0 ∨ x ∈ ns) → ∀ a, x ≤ a → a < x + nNext + hgt es x → a < es.length := by
    intro x hx a _ ha2
    rcases hx with rfl | hx
    · have := wf.count; have := wf.head_hgt
      simp only [tableHeight, nNext] at *; omega
    · have := wf.ns_fit x hx; omega
  -- a slot of an old record is overwritten only if it is one of the predecessor slots
  have hold : ∀ x, (x = 0 ∨ x ∈ ns) → ∀ j, j < nNext + hgt es x →
      (∀ l, l < H → x = p l → j ≠ nNext + l) → es'.getD (x + j) 0 = es.getD (x + j) 0 := by
    intro x hx j hj hne
    have hlt := hregion x hx (x + j) (by omega) (by omega)
    rw [h2 (x + j) (by omega) ?_, getD_append_rec _ _ _ _ hlt]
    intro l hl heq
    have hxp : x = p l := wf.region_disj hx (hpns l hl) (a := x + j) ⟨by omega, by omega⟩
      ⟨by omega, by have := (hpred l hl).lt; omega⟩
    exact hne l hl hxp (by omega)
  refine ⟨?_, ?_, ?_, ?_⟩
  · intro x hx j hj
    exact hold x hx j (by simp only [nNext]; omega) (fun l _ _ => by simp only [nNext]; omega)
  · intro x hx l hl
    unfold nxt
    by_cases hc : l < H ∧ x = p l
    · rw [if_pos hc]
      obtain ⟨hlH, hxp⟩ := hc
      rw [hxp]
      have := h1 l hlH
      rw [← this]
      congr 1
      omega
    · rw [if_neg hc]
      have := hold x hx (nNext + l) (by omega) (fun l' hl' hxp hj => hc ⟨by omega, by
        have : l = l' := by omega
        rw [this]; exact hxp⟩)
      rw [← Nat.add_assoc] at this
      exact this
  · have hr := getD_rec es c0 c1 c2 H
    have hfresh : ∀ j, j < 4 → ∀ l, l < H → es.length + j ≠ p l + l + nNext := by
      intro j _ l hl
      have := hpslot l hl
      omega
    refine ⟨?_, ?_, ?_, ?_⟩
    · rw [← hr.1]
      exact h2 _ (by omega) (hfresh 0 (by omega))
    · rw [← hr.2.1]
      exact h2 _ (by simp only [nKey]; omega) (hfresh 1 (by omega))
    · rw [← hr.2.2.1]
      exact h2 _ (by simp only [nVal]; omega) (hfresh 2 (by omega))
    · rw [← hr.2.2.2]
      exact h2 _ (by simp only [nHeight]; omega) (hfresh 3 (by omega))
  · intro l hl
    unfold nxt
    have := h3 l hl
    rw [getD_append_rec _ _ _ _ (hpslot l hl)] at this
    rw [← show es.length + 4 + l = es.length + nNext + l from rfl, this]
    congr 1
    omega

/-! ## Inserting a node keeps the skip list well formed -/

theorem WF.nodup {es : List Nat} {cache : Bytes} {mH : Nat} {ns : List Nat}
    (wf : WF es cache mH ns) : (0 :: ns).Nodup := by
  rw [List.nodup_cons]
  constructor
  · intro h0
    exact wf.node_ne_zero h0 rfl
  · refine wf.sorted.imp ?_
    intro a b hab heq
    rw [heq] at hab
    exact bytesCompare_irrefl _ hab

/-- In a list without duplicates an element determines the split around it. -/
theorem split_unique {L A B A' B' : List Nat} {x : Nat} (hnd : L.Nodup)
    (h : L = A ++ x :: B) (h' : L = A' ++ x :: B') : A = A' ∧ B = B' := by
  subst h
  have hxA : x ∉ A := by
    intro hx
    have := (List.nodup_append.1 hnd).2.2
    exact this hx (List.mem_cons_self _ _) 
  have hxB : x ∉ B := by
    have := (List.nodup_append.1 hnd).2.1
    exact (List.nodup_cons.1 this).1
  rcases List.append_eq_append_iff.1 h' with ⟨a', h1, h2⟩ | ⟨c', h1, h2⟩
  · rcases List.cons_eq_append_iff.1 h2 with ⟨rfl, h3⟩ | ⟨a'', rfl, h3⟩
    · simp only [List.cons.injEq, true_and] at h3
      subst h3
      simp at h1
      exact ⟨h1.symm, rfl⟩
    · exfalso
      apply hxB
      rw [h3]; simp
  · rcases List.cons_eq_append_iff.1 h2 with ⟨rfl, h3⟩ | ⟨a'', rfl, h3⟩
    · simp only [List.cons.injEq, true_and] at h3
      subst h3
      simp at h1
      exact ⟨h1, rfl⟩
    · exfalso
      apply hxA
      rw [h1]; simp

/-- The last element with a property is unique. -/
theorem last_unique {P : Nat → Prop} {L A B A' B' : List Nat} {x x' : Nat}
    (h : L = A ++ x :: B) (h' : L = A' ++ x' :: B') (hx : P x) (hx' : P x')
    (hB : ∀ y ∈ B, ¬ P y) (hB' : ∀ y ∈ B', ¬ P y) : x = x' := by
  subst h
  rcases List.append_eq_append_iff.1 h' with ⟨a', h1, h2⟩ | ⟨c', h1, h2⟩
  · rcases List.cons_eq_append_iff.1 h2 with ⟨rfl, h3⟩ | ⟨a'', rfl, h3⟩
    · simp only [List.cons.injEq] at h3
      exact h3.1.symm
    · exfalso
      exact hB x' (by rw [h3]; simp) hx'
  · rcases List.cons_eq_append_iff.1 h2 with ⟨rfl, h3⟩ | ⟨a'', rfl, h3⟩
    · simp only [List.cons.injEq] at h3
      exact h3.1
    · exfalso
      exact hB' x (by rw [h3]; simp) hx

theorem WF.insert {es : List Nat} {cache : Bytes} {mH : Nat} {ns lo hi : List Nat}
    (wf : WF es cache mH ns) (hns : ns = lo ++ hi) (k v : Bytes)
    (hlo : ∀ x ∈ lo, bytesCompare (keyAt es cache x) k < 0)
    (hhi : ∀ y ∈ hi, 0 < bytesCompare (keyAt es cache y) k)
    {H mH' : Nat} (hH1 : 1 ≤ H) (hHm : H ≤ mH') (hmm : mH ≤ mH') (hm12 : mH' ≤ tableHeight)
    {p : Nat → Nat} (hpred : ∀ l, l < H → IsPred es lo l (p l)) {es' : List Nat}
    (hlen : es'.length = es.length + 4 + H)
    (hold : ∀ x, (x = 0 ∨ x ∈ ns) → ∀ j, j < 4 → es'.getD (x + j) 0 = es.getD (x + j) 0)
    (hnx : ∀ x, (x = 0 ∨ x ∈ ns) → ∀ l, l < hgt es x →
      nxt es' x l = if l < H ∧ x = p l then es.length else nxt es x l)
    (hrec : es'.getD es.length 0 = cache.length ∧ es'.getD (es.length + nKey) 0 = k.length ∧
      es'.getD (es.length + nVal) 0 = v.length ∧ es'.getD (es.length + nHeight) 0 = H)
    (hnew : ∀ l, l < H → nxt es' es.length l = nxt es (p l) l) :
    WF es' (cache ++ (k ++ v)) mH' (lo ++ es.length :: hi) ∧
    keyAt es' (cache ++ (k ++ v)) es.length = k ∧
    valAt es' (cache ++ (k ++ v)) es.length = v ∧
    (∀ x ∈ ns, keyAt es' (cache ++ (k ++ v)) x = keyAt es cache x) ∧
    (∀ x ∈ ns, valAt es' (cache ++ (k ++ v)) x = valAt es cache x) := by
  have hlo_ns : ∀ y ∈ lo, y ∈ ns := fun y hy => by rw [hns]; exact List.mem_append_left _ hy
  have hhi_ns : ∀ y ∈ hi, y ∈ ns := fun y hy => by rw [hns]; exact List.mem_append_right _ hy
  have hh : ∀ x, (x = 0 ∨ x ∈ ns) → hgt es' x = hgt es x := fun x hx => hold x hx 3 (by omega)
  have hhe : hgt es' es.length = H := hrec.2.2.2
  have hold0 : ∀ x, (x = 0 ∨ x ∈ ns) → es'.getD x 0 = es.getD x 0 := fun x hx => by
    have := hold x hx 0 (by omega)
    simpa using this
  have hkey_old : ∀ x ∈ ns, keyAt es' (cache ++ (k ++ v)) x = keyAt es cache x := by
    intro x hx
    have := wf.data_fit x hx
    exact keyAt_congr (hold0 x (Or.inr hx)) (hold x (Or.inr hx) 1 (by omega)) (by omega)
      ⟨k ++ v, rfl⟩
  have hval_old : ∀ x ∈ ns, valAt es' (cache ++ (k ++ v)) x = valAt es cache x := by
    intro x hx
    exact valAt_congr (hold0 x (Or.inr hx)) (hold x (Or.inr hx) 1 (by omega))
      (hold x (Or.inr hx) 2 (by omega)) (wf.data_fit x hx) ⟨k ++ v, rfl⟩
  have hkey_e : keyAt es' (cache ++ (k ++ v)) es.length = k := by
    rw [← List.append_assoc]; exact keyAt_fresh v hrec.1 hrec.2.1
  have hval_e : valAt es' (cache ++ (k ++ v)) es.length = v := by
    rw [← List.append_assoc]; exact valAt_fresh hrec.1 hrec.2.1 hrec.2.2.1
  have hlt_e : ∀ x ∈ ns, x + nNext + hgt es x ≤ es.length := wf.ns_fit
  have hmem : ∀ x, x ∈ lo ++ es.length :: hi → x ∈ ns ∨ x = es.length := by
    intro x hx
    rcases List.mem_append.1 hx with h | h
    · exact Or.inl (hlo_ns x h)
    · rcases List.mem_cons.1 h with h | h
      · exact Or.inr h
      · exact Or.inl (hhi_ns x h)
  have hfa : ∀ l (L : List Nat), (∀ y ∈ L, y ∈ ns) → firstAt es' l L = firstAt es l L :=
    fun l L hL => firstAt_congr l L (fun y hy => hh y (Or.inr (hL y hy)))
  have hnd : (0 :: lo).Nodup := by
    have := wf.nodup
    rw [hns, ← List.cons_append] at this
    exact (List.nodup_append.1 this).1
  have hsplit0 : ∀ A x B, 0 :: lo = A ++ x :: B → 0 :: ns = A ++ x :: (B ++ hi) := by
    intro A x B h
    rw [hns, ← List.cons_append, h]; simp
  -- the forward pointers of the new node
  have caseE : ∀ l, l < H → nxt es' es.length l = firstAt es' l hi := by
    intro l hl
    obtain ⟨Ap, Bp, hs, hlt, hBp⟩ := hpred l hl
    rw [hnew l hl, wf.links Ap (p l) (Bp ++ hi) (hsplit0 _ _ _ hs) l hlt,
      firstAt_append_of_low es l Bp hi hBp, hfa l hi hhi_ns]
  -- the forward pointers of the nodes behind the new node
  have caseHI : ∀ A x B, hi = A ++ x :: B → ∀ l, l < hgt es' x →
      nxt es' x l = firstAt es' l B := by
    intro A x B hs l hl
    have hxhi : x ∈ hi := by rw [hs]; simp
    have hBhi : ∀ y ∈ B, y ∈ hi := fun y hy => by rw [hs]; simp [hy]
    have hxns := hhi_ns x hxhi
    rw [hh x (Or.inr hxns)] at hl
    have hne : ¬ (l < H ∧ x = p l) := by
      rintro ⟨hlH, hxp⟩
      rcases (hpred l hlH).mem with h0 | h0
      · exact wf.node_ne_zero hxns (hxp.trans h0)
      · have h1 := hlo x (hxp ▸ h0)
        have h2 := hhi x hxhi
        omega
    rw [hnx x (Or.inr hxns) l hl, if_neg hne, hfa l B (fun y hy => hhi_ns y (hBhi y hy))]
    apply wf.links (0 :: lo ++ A) x B _ l hl
    rw [hns, hs]; simp
  -- the forward pointers of the head and of the nodes in front of the new node
  have caseLO : ∀ A x C, 0 :: lo = A ++ x :: C → ∀ l, l < hgt es' x →
      nxt es' x l = firstAt es' l (C ++ es.length :: hi) := by
    intro A x C hs l hl
    obtain ⟨hxlo, hClo⟩ := split_mem hs
    have hxns : x = 0 ∨ x ∈ ns := hxlo.imp id (hlo_ns x)
    have hCns : ∀ y ∈ C, y ∈ ns := fun y hy => hlo_ns y (hClo y hy)
    rw [hh x hxns] at hl
    have hold_link := wf.links A x (C ++ hi) (hsplit0 _ _ _ hs) l hl
    rcases firstAt_cases es l C with hlow | ⟨R1, y, R2, hc, hy, -, -⟩
    · have hlow' : ∀ y ∈ C, hgt es' y ≤ l := fun y hy => by
        rw [hh y (Or.inr (hCns y hy))]; exact hlow y hy
      rw [firstAt_append_of_low es' l C _ hlow', firstAt_cons, hhe]
      by_cases hlH : l < H
      · obtain ⟨Ap, Bp, hsp, hltp, hBp⟩ := hpred l hlH
        have hxp : x = p l :=
          last_unique (P := fun y => l < hgt es y) hs hsp hl hltp
            (fun y hy => by have := hlow y hy; omega)
            (fun y hy => by have := hBp y hy; omega)
        rw [hnx x hxns l hl, if_pos ⟨hlH, hxp⟩, if_pos hlH]
      · have hne : ¬ (l < H ∧ x = p l) := fun h => hlH h.1
        rw [hnx x hxns l hl, if_neg hne, if_neg hlH, hold_link,
          firstAt_append_of_low es l C hi hlow, hfa l hi hhi_ns]
    · have hyC : y ∈ C := by rw [hc]; simp
      have hy' : l < hgt es' y := by rw [hh y (Or.inr (hCns y hyC))]; exact hy
      have hne : ¬ (l < H ∧ x = p l) := by
        rintro ⟨hlH, hxp⟩
        obtain ⟨Ap, Bp, hsp, -, hBp⟩ := hpred l hlH
        rw [← hxp] at hsp
        obtain ⟨-, hCB⟩ := split_unique hnd hs hsp
        have := hBp y (hCB ▸ hyC)
        omega
      rw [hnx x hxns l hl, if_neg hne, firstAt_append_of_mem es' l C _ y hyC hy', hold_link,
        firstAt_append_of_mem es l C hi y hyC hy, hfa l C hCns]
  refine ⟨?_, hkey_e, hval_e, hkey_old, hval_old⟩
  refine
    { mH_pos := le_trans wf.mH_pos hmm
      mH_le := hm12
      head_hgt := by rw [hh 0 (Or.inl rfl)]; exact wf.head_hgt
      count := ?_
      ns_ge := ?_
      ns_fit := ?_
      hgt_pos := ?_
      hgt_le := ?_
      data_fit := ?_
      disj := ?_
      sorted := ?_
      links := ?_ }
  · have := wf.count
    rw [hns] at this
    simp only [List.length_append, List.length_cons] at this ⊢
    omega
  · intro x hx
    rcases hmem x hx with h | rfl
    · exact wf.ns_ge x h
    · have := wf.count; omega
  · intro x hx
    rcases hmem x hx with h | rfl
    · rw [hh x (Or.inr h)]; have := hlt_e x h; omega
    · rw [hhe, hlen]; simp only [nNext]; omega
  · intro x hx
    rcases hmem x hx with h | rfl
    · rw [hh x (Or.inr h)]; exact wf.hgt_pos x h
    · rw [hhe]; exact hH1
  · intro x hx
    rcases hmem x hx with h | rfl
    · rw [hh x (Or.inr h)]; exact le_trans (wf.hgt_le x h) hmm
    · rw [hhe]; exact hHm
  · intro x hx
    rcases hmem x hx with h | rfl
    · rw [hold0 x (Or.inr h), show es'.getD (x + nKey) 0 = es.getD (x + nKey) 0 from
          hold x (Or.inr h) 1 (by omega), show es'.getD (x + nVal) 0 = es.getD (x + nVal) 0 from
          hold x (Or.inr h) 2 (by omega)]
      have := wf.data_fit x h
      simp only [List.length_append]
      omega
    · rw [hrec.1, hrec.2.1, hrec.2.2.1]
      simp only [List.length_append]
      omega
  · intro x hx y hy hxy
    rcases hmem x hx with h | rfl
    · rw [hh x (Or.inr h)]
      rcases hmem y hy with h' | rfl
      · exact wf.disj x h y h' hxy
      · exact hlt_e x h
    · rcases hmem y hy with h' | rfl
      · have := hlt_e y h'; omega
      · omega
  · have hs := wf.sorted
    rw [hns, List.pairwise_append] at hs
    obtain ⟨hs1, hs2, hs3⟩ := hs
    rw [List.pairwise_append, List.pairwise_cons]
    refine ⟨?_, ⟨?_, ?_⟩, ?_⟩
    · refine hs1.imp_of_mem ?_
      intro a b ha hb hab
      rw [hkey_old a (hlo_ns a ha), hkey_old b (hlo_ns b hb)]; exact hab
    · intro y hy
      rw [hkey_e, hkey_old y (hhi_ns y hy)]
      exact (bytesCompare_flip _ _).2 (hhi y hy)
    · refine hs2.imp_of_mem ?_
      intro a b ha hb hab
      rw [hkey_old a (hhi_ns a ha), hkey_old b (hhi_ns b hb)]; exact hab
    · intro a ha b hb
      rw [hkey_old a (hlo_ns a ha)]
      rcases List.mem_cons.1 hb with rfl | hb
      · rw [hkey_e]; exact hlo a ha
      · rw [hkey_old b (hhi_ns b hb)]; exact hs3 a ha b hb
  · intro A x B hs l hl
    have hs' : (0 :: lo) ++ es.length :: hi = A ++ x :: B := by simpa using hs
    rcases List.append_eq_append_iff.1 hs' with ⟨a', h1, h2⟩ | ⟨c', h1, h2⟩
    · rcases List.cons_eq_append_iff.1 h2 with ⟨-, h3⟩ | ⟨a'', -, h3⟩
      · simp only [List.cons.injEq] at h3
        obtain ⟨rfl, rfl⟩ := h3
        rw [hhe] at hl
        exact caseE l hl
      · exact caseHI a'' x B h3 l hl
    · rcases List.cons_eq_append_iff.1 h2 with ⟨-, h3⟩ | ⟨c'', rfl, h3⟩
      · simp only [List.cons.injEq] at h3
        obtain ⟨rfl, rfl⟩ := h3
        rw [hhe] at hl
        exact caseE l hl
      · rw [h3]
        exact caseLO A x c'' h1 l hl

/-! ## The insert path of `writeLock` -/

theorem getD_take_lt (xs : List Nat) {n i : Nat} (h : i < n) :
    (xs.take n).getD i 0 = xs.getD i 0 := by
  simp [List.getD_eq_getElem?_getD, List.getElem?_take, h]

theorem sliceOf_zero {xs : List Nat} {n : Nat} (h : n ≤ xs.length) :
    sliceOf xs 0 n = .ok (xs.take n) := by
  simp [sliceOf, h]

/-- Appending a record and splicing it in behind the recorded predecessors. -/
theorem splice_insert {es : List Nat} {cache : Bytes} {mH : Nat} {ns lo hi : List Nat}
    (wf : WF es cache mH ns) (hns : ns = lo ++ hi) (k v : Bytes)
    (hlo : ∀ x ∈ lo, bytesCompare (keyAt es cache x) k < 0)
    (hhi : ∀ y ∈ hi, 0 < bytesCompare (keyAt es cache y) k)
    {H mH' : Nat} (hH1 : 1 ≤ H) (hHm : H ≤ mH') (hmm : mH ≤ mH') (hm12 : mH' ≤ tableHeight)
    {prev : List Nat} (hplen : prev.length = tableHeight)
    (hpred : ∀ l, l < H → IsPred es lo l (prev.getD l 0)) :
    ∃ es', spliceLoop es.length 0 (prev.take H) (es ++ [cache.length, k.length, v.length, H])
        = .ok es' ∧
      es'.length = es.length + 4 + H ∧
      WF es' (cache ++ (k ++ v)) mH' (lo ++ es.length :: hi) ∧
      keyAt es' (cache ++ (k ++ v)) es.length = k ∧
      valAt es' (cache ++ (k ++ v)) es.length = v ∧
      (∀ x ∈ ns, keyAt es' (cache ++ (k ++ v)) x = keyAt es cache x) ∧
      (∀ x ∈ ns, valAt es' (cache ++ (k ++ v)) x = valAt es cache x) := by
  have hH12 : H ≤ prev.length := by rw [hplen]; omega
  have htl : (prev.take H).length = H := by simp [hH12]
  have hpns : ∀ l, l < H → (prev.getD l 0 = 0 ∨ prev.getD l 0 ∈ ns) := by
    intro l hl
    exact (hpred l hl).mem.imp id (fun h => by rw [hns]; exact List.mem_append_left _ h)
  have hpslot : ∀ l, l < H → prev.getD l 0 + l + nNext < es.length := by
    intro l hl
    have := wf.slot_lt (hpns l hl) (hpred l hl).lt
    omega
  obtain ⟨es', hrun, hlen, h1, h2, h3⟩ :=
    spliceLoop_spec es.length (prev.take H) 0 (es ++ [cache.length, k.length, v.length, H])
      (by
        intro j hj
        rw [htl] at hj
        rw [getD_take_lt _ hj]
        have := hpslot j hj
        simp only [List.length_append, List.length_cons, List.length_nil]
        omega)
      (by
        intro j j' hj hj' hne heq
        rw [htl] at hj hj'
        rw [getD_take_lt _ hj, getD_take_lt _ hj'] at heq
        have hpp : prev.getD j 0 = prev.getD j' 0 :=
          wf.region_disj (hpns j hj) (hpns j' hj') (a := prev.getD j 0 + nNext + j)
            ⟨by omega, by have := (hpred j hj).lt; omega⟩
            ⟨by omega, by have := (hpred j' hj').lt; omega⟩
        omega)
  have hlen' : es'.length = es.length + 4 + H := by
    rw [hlen, htl]; simp
  obtain ⟨f1, f2, f3, f4⟩ :=
    @splice_fields es cache mH ns lo hi wf hns H (fun l => prev.getD l 0) hpred
      cache.length k.length v.length es'
      (by
        intro l hl
        have := h1 l (by rw [htl]; exact hl)
        rw [getD_take_lt _ hl] at this
        simpa using this)
      (by
        intro a ha hne
        apply h2 a (by simp; omega)
        intro j hj
        rw [htl] at hj
        rw [getD_take_lt _ hj]
        have hj2 : a ≠ prev.getD j 0 + j + nNext := hne j hj
        omega)
      (by
        intro l hl
        have := h3 l (by rw [htl]; exact hl)
        rw [getD_take_lt _ hl] at this
        simp only [List.length_append, List.length_cons, List.length_nil, Nat.zero_add] at this
        exact this)
  exact ⟨es', hrun, hlen', wf.insert hns k v hlo hhi hH1 hHm hmm hm12 hpred hlen' f1 f2 f3 f4⟩

theorem writeLock_insert {s : store} {ns : List Nat} (hv : Valid s ns) (k v : Bytes)
    (hk : ∀ n ∈ ns, keyAt s.entries s.cache n ≠ k) :
    ∃ s' lo hi, writeLock s k v = .ok (s', none) ∧ ns = lo ++ hi ∧
      Valid s' (lo ++ s.entries.length :: hi) ∧
      s'.txCount = s.txCount + 1 ∧
      s'.cacheSize = s.cacheSize + ((k.length : Int) + v.length) ∧
      keyAt s'.entries s'.cache s.entries.length = k ∧
      valAt s'.entries s'.cache s.entries.length = v ∧
      (∀ x ∈ ns, keyAt s'.entries s'.cache x = keyAt s.entries s.cache x) ∧
      (∀ x ∈ ns, valAt s'.entries s'.cache x = valAt s.entries s.cache x) ∧
      s'.growCap = s.growCap := by
  obtain ⟨prev', e, lo, hi, hrun, hplen, -, hsplit, hlo, hhi, hpost⟩ :=
    scanEntries_miss hv k true hk
  obtain ⟨hP, -⟩ := hpost rfl
  obtain ⟨wf, hprev⟩ := hv
  obtain ⟨hH1, hH12⟩ := heightLoop_bounds tableHeight 1 s.rnd (le_refl _) (by simp [tableHeight])
  unfold writeLock
  rw [hrun]
  simp only [ok_bind, Bool.false_eq_true, if_false, randomTableHeight, appendCache]
  generalize (heightLoop tableHeight 1 s.rnd).1 = H at hH1 hH12 ⊢
  generalize (heightLoop tableHeight 1 s.rnd).2 = rnd'
  by_cases hgt : H > s.mHeight
  · simp only [hgt, if_true]
    obtain ⟨prev'', hreset, hlen'', hz, ho⟩ :=
      resetLoop_spec (H - s.mHeight) s.mHeight prev' (by rw [hplen]; omega)
    have hpred : ∀ l, l < H → IsPred s.entries lo l (prev''.getD l 0) := by
      intro l hl
      by_cases hlm : l < s.mHeight
      · rw [ho l (Or.inl hlm)]
        exact hP l hlm
      · rw [hz l (by omega) (by omega)]
        refine ⟨[], lo, rfl, by rw [wf.head_hgt]; omega, ?_⟩
        intro y hy
        have := wf.hgt_le y (by rw [hsplit]; exact List.mem_append_left _ hy)
        omega
    obtain ⟨es', hsp, -, wf', hke, hve, hko, hvo⟩ :=
      splice_insert wf hsplit k v hlo hhi hH1 (le_refl H) (le_of_lt hgt) hH12
        (hlen''.trans hplen) hpred
    rw [hreset, ok_bind, sliceOf_zero (by rw [hlen'', hplen]; exact hH12), ok_bind, hsp, ok_bind]
    exact ⟨_, lo, hi, rfl, hsplit, ⟨wf', hlen''.trans hplen⟩, rfl, rfl, hke, hve, hko, hvo, rfl⟩
  · simp only [hgt, if_false]
    have hpred : ∀ l, l < H → IsPred s.entries lo l (prev'.getD l 0) :=
      fun l hl => hP l (by omega)
    obtain ⟨es', hsp, -, wf', hke, hve, hko, hvo⟩ :=
      splice_insert wf hsplit k v hlo hhi hH1 (Nat.le_of_not_lt hgt) (le_refl _) wf.mH_le
        hplen hpred
    rw [pure_eq_ok, ok_bind, sliceOf_zero (by rw [hplen]; exact hH12), ok_bind, hsp, ok_bind]
    exact ⟨_, lo, hi, rfl, hsplit, ⟨wf', hplen⟩, rfl, rfl, hke, hve, hko, hvo, rfl⟩

/-! ## Stores built by writes -/

theorem newStore_valid (draws : Nat → Nat) (grow : Nat → Nat → Nat) (capacity : Nat) :
    Valid (newStore draws grow capacity) [] := by
  refine ⟨?_, rfl⟩
  refine
    { mH_pos := le_refl _
      mH_le := by show 1 ≤ 12; omega
      head_hgt := rfl
      count := by simp [newStore, tableHeight]
      ns_ge := by simp
      ns_fit := by simp
      hgt_pos := by simp
      hgt_le := by simp
      data_fit := by simp
      disj := by simp
      sorted := List.Pairwise.nil
      links := ?_ }
  intro A x B h l _
  rcases List.cons_eq_append_iff.1 h with ⟨rfl, h2⟩ | ⟨A', rfl, h2⟩
  · simp only [List.cons.injEq] at h2
    obtain ⟨rfl, rfl⟩ := h2
    rw [firstAt_nil]
    show ((List.replicate (4 + tableHeight) 0).set nHeight tableHeight).getD (0 + nNext + l) 0 = 0
    rw [getD_set_ne _ (by simp only [nHeight, nNext]; omega)]
    rw [List.getD_eq_getElem?_getD]
    by_cases hl : 0 + nNext + l < 4 + tableHeight
    · simp [hl]
    · simp [List.getElem?_eq_none (l := List.replicate (4 + tableHeight) 0)
        (n := 0 + nNext + l) (by simp; omega)]
  · simp at h2

theorem newStore_holds (draws : Nat → Nat) (grow : Nat → Nat → Nat) (capacity : Nat) :
    Holds (newStore draws grow capacity) [] (fun _ => none) := by
  intro k
  exact ⟨fun v h => by simp at h, fun _ n hn => by simp at hn⟩

/-- A store either has a node for a key or has none. -/
theorem node_or_none (s : store) (ns : List Nat) (k : Bytes) :
    (∃ n ∈ ns, keyAt s.entries s.cache n = k) ∨ ∀ n ∈ ns, keyAt s.entries s.cache n ≠ k := by
  by_cases h : ∃ n ∈ ns, keyAt s.entries s.cache n = k
  · exact Or.inl h
  · right
    intro n hn hk
    exact h ⟨n, hn, hk⟩

/-- One `writeLock` on a well-formed store: the store stays well formed and the
binding of the key is replaced. -/
theorem writeLock_step {s : store} {ns : List Nat} {f : Bytes → Option Bytes}
    (hv : Valid s ns) (hf : Holds s ns f) (k v : Bytes) :
    ∃ s' ns', writeLock s k v = .ok (s', none) ∧ Valid s' ns' ∧
      Holds s' ns' (Function.update f k (some v)) := by
  rcases node_or_none s ns k with ⟨n, hn, hkn⟩ | hnone
  · obtain ⟨s', hrun, hv', -, -, hk', hvo, hvn, -⟩ := writeLock_update hv hn v
    rw [hkn] at hrun
    refine ⟨s', ns, hrun, hv', ?_⟩
    intro q
    by_cases hq : q = k
    · subst hq
      simp only [Function.update_same]
      refine ⟨fun w hw => ?_, fun h => by simp at h⟩
      simp only [Option.some.injEq] at hw
      subst hw
      exact ⟨n, hn, (hk' n hn).trans hkn, hvn⟩
    · simp only [Function.update_noteq hq]
      obtain ⟨h1, h2⟩ := hf q
      refine ⟨fun w hw => ?_, fun h x hx => ?_⟩
      · obtain ⟨x, hx, hxk, hxv⟩ := h1 w hw
        have hxn : x ≠ n := by
          rintro rfl
          exact hq (hxk.symm.trans hkn)
        exact ⟨x, hx, (hk' x hx).trans hxk, (hvo x hx hxn).trans hxv⟩
      · rw [hk' x hx]; exact h2 h x hx
  · obtain ⟨s', lo, hi, hrun, hsplit, hv', -, -, hke, hve, hko, hvo, -⟩ :=
      writeLock_insert hv k v hnone
    refine ⟨s', _, hrun, hv', ?_⟩
    have hmem : ∀ x, x ∈ lo ++ s.entries.length :: hi → x ∈ ns ∨ x = s.entries.length := by
      intro x hx
      rw [hsplit]
      simp only [List.mem_append, List.mem_cons] at hx ⊢
      tauto
    have hmem' : ∀ x, x ∈ ns → x ∈ lo ++ s.entries.length :: hi := by
      intro x hx
      rw [hsplit] at hx
      simp only [List.mem_append, List.mem_cons] at hx ⊢
      tauto
    intro q
    by_cases hq : q = k
    · subst hq
      simp only [Function.update_same]
      refine ⟨fun w hw => ?_, fun h => by simp at h⟩
      simp only [Option.some.injEq] at hw
      subst hw
      exact ⟨s.entries.length, by simp, hke, hve⟩
    · simp only [Function.update_noteq hq]
      obtain ⟨h1, h2⟩ := hf q
      refine ⟨fun w hw => ?_, fun h x hx => ?_⟩
      · obtain ⟨x, hx, hxk, hxv⟩ := h1 w hw
        exact ⟨x, hmem' x hx, (hko x hx).trans hxk, (hvo x hx).trans hxv⟩
      · rcases hmem x hx with hx' | rfl
        · rw [hko x hx']; exact h2 h x hx'
        · rw [hke]; exact fun h' => hq h'.symm

/-! ## The last value written -/

theorem lastVal_nil (k : Bytes) : lastVal [] k = none := rfl

theorem lastVal_cons (w : Bytes × Bytes) (ws : List (Bytes × Bytes)) (k : Bytes) :
    lastVal (w :: ws) k = (lastVal ws k).or (if w.1 = k then some w.2 else none) := by
  unfold lastVal
  rw [List.reverse_cons, List.find?_append]
  cases h : List.find? (fun w => decide (w.1 = k)) ws.reverse with
  | some a => simp
  | none =>
    by_cases hw : w.1 = k <;> simp [List.find?, hw]

theorem lastVal_eq_none {ws : List (Bytes × Bytes)} {k : Bytes}
    (h : k ∉ ws.map Prod.fst) : lastVal ws k = none := by
  unfold lastVal
  rw [Option.map_eq_none', List.find?_eq_none]
  intro w hw hk
  apply h
  simp only [decide_eq_true_eq] at hk
  exact List.mem_map.2 ⟨w, List.mem_reverse.1 hw, hk⟩

theorem lastVal_isSome {ws : List (Bytes × Bytes)} {k : Bytes}
    (h : k ∈ ws.map Prod.fst) : ∃ v, lastVal ws k = some v := by
  cases hl : lastVal ws k with
  | some v => exact ⟨v, rfl⟩
  | none =>
    exfalso
    unfold lastVal at hl
    rw [Option.map_eq_none', List.find?_eq_none] at hl
    obtain ⟨w, hw, hk⟩ := List.mem_map.1 h
    exact hl w (List.mem_reverse.2 hw) (by simpa using hk)

/-- A sequence of writes with non-empty keys runs to the end without an error and
leaves a well-formed store holding the last value written for each key. -/
theorem run_writes : ∀ (ws : List (Bytes × Bytes)) (s : store) (ns : List Nat)
    (f : Bytes → Option Bytes), Valid s ns → Holds s ns f → (∀ w ∈ ws, w.1 ≠ []) →
    ∃ s' rs ns', run s (ws.map (fun w => Call.write w.1 w.2)) = .ok (s', rs) ∧
      (∀ r ∈ rs, r = Reply.err none) ∧ Valid s' ns' ∧
      Holds s' ns' (fun q => (lastVal ws q).or (f q)) := by
  intro ws
  induction ws with
  | nil =>
    intro s ns f hv hf _
    refine ⟨s, [], ns, rfl, by simp, hv, ?_⟩
    simpa [lastVal_nil] using hf
  | cons w ws ih =>
    intro s ns f hv hf hne
    obtain ⟨s1, ns1, hw, hv1, hf1⟩ := writeLock_step hv hf w.1 w.2
    obtain ⟨s', rs, ns', hrun, hrs, hv', hf'⟩ :=
      ih s1 ns1 _ hv1 hf1 (fun w' hw' => hne w' (List.mem_cons_of_mem _ hw'))
    refine ⟨s', Reply.err none :: rs, ns', ?_, ?_, hv', ?_⟩
    · simp only [List.map_cons, run, step]
      rw [Write_of_ne _ (hne w (List.mem_cons_self _ _)), hw]
      simp only [ok_bind, pure_eq_ok]
      rw [hrun]
      rfl
    · intro r hr
      rcases List.mem_cons.1 hr with rfl | h
      · rfl
      · exact hrs r h
    · have : (fun q => (lastVal (w :: ws) q).or (f q))
          = (fun q => (lastVal ws q).or (Function.update f w.1 (some w.2) q)) := by
        funext q
        rw [lastVal_cons]
        cases lastVal ws q with
        | some a => simp
        | none =>
          by_cases hq : w.1 = q
          · subst hq; simp
          · simp [hq, Function.update_noteq (Ne.symm hq)]
      rw [this]
      exact hf'

/-- The store built by a sequence of writes on a new store. -/
theorem built_by_writes (draws : Nat → Nat) (grow : Nat → Nat → Nat) (capacity : Nat)
    (ws : List (Bytes × Bytes)) (hne : ∀ w ∈ ws, w.1 ≠ []) :
    ∃ s rs ns, run (newStore draws grow capacity) (ws.map (fun w => Call.write w.1 w.2))
        = .ok (s, rs) ∧
      (∀ r ∈ rs, r = Reply.err none) ∧ Valid s ns ∧ Holds s ns (lastVal ws) := by
  obtain ⟨s, rs, ns, hrun, hrs, hv, hf⟩ :=
    run_writes ws _ [] _ (newStore_valid draws grow capacity)
      (newStore_holds draws grow capacity) hne
  refine ⟨s, rs, ns, hrun, hrs, hv, ?_⟩
  simpa using hf

/-! ## The claims -/

/-- Claim C1, read-after-write on write-only histories: for every draw stream (hence
every choice of insertion heights), every reallocation policy and initial capacity,
and every sequence of `Write` calls with non-empty keys on a new store, all writes
return nil and `Read` of a key of the sequence returns, with a nil error, the value
of its last write. -/
theorem read_after_write (draws : Nat → Nat) (grow : Nat → Nat → Nat) (capacity : Nat)
    (ws : List (Bytes × Bytes)) (hne : ∀ w ∈ ws, w.1 ≠ []) (k : Bytes)
    (hk : k ∈ ws.map Prod.fst) :
    ∃ s rs v, run (newStore draws grow capacity) (ws.map (fun w => Call.write w.1 w.2))
        = .ok (s, rs) ∧
      (∀ r ∈ rs, r = Reply.err none) ∧ lastVal ws k = some v ∧
      Read s k = .ok (s, some v, none) := by
  obtain ⟨s, rs, ns, hrun, hrs, hv, hf⟩ := built_by_writes draws grow capacity ws hne
  obtain ⟨v, hlast⟩ := lastVal_isSome hk
  obtain ⟨n, hn, hkn, hvn⟩ := (hf k).1 v hlast
  obtain ⟨w, hw, hwk⟩ := List.mem_map.1 hk
  have hk0 : k ≠ [] := hwk ▸ hne w hw
  refine ⟨s, rs, v, hrun, hrs, hlast, ?_⟩
  rw [Read_of_ne hk0, ← hkn, readLock_hit hv hn, hvn]

/-- An instance of `read_after_write`: the key `foo` written twice. -/
theorem read_after_write_witness :
    (∀ w ∈ [([102, 111, 111], [98, 97, 114]), ([102, 111, 111], [1, 2])],
        (w : Bytes × Bytes).1 ≠ []) ∧
    ([102, 111, 111] : Bytes) ∈
      ([([102, 111, 111], [98, 97, 114]), ([102, 111, 111], [1, 2])] :
        List (Bytes × Bytes)).map Prod.fst ∧
    ∃ s rs v, run (newStore tallFirst doubling 0)
        (([([102, 111, 111], [98, 97, 114]), ([102, 111, 111], [1, 2])] :
          List (Bytes × Bytes)).map (fun w => Call.write w.1 w.2)) = .ok (s, rs) ∧
      (∀ r ∈ rs, r = Reply.err none) ∧
      lastVal [([102, 111, 111], [98, 97, 114]), ([102, 111, 111], [1, 2])] [102, 111, 111]
        = some v ∧
      Read s [102, 111, 111] = .ok (s, some v, none) :=
  ⟨by decide, by decide,
    read_after_write tallFirst doubling 0 _ (by decide) [102, 111, 111] (by decide)⟩

/-- Claim C2, delete-then-read, evaluated where the code breaks it: with a first
node of height 2, after `Write a`, `Write b` and a `deleteLock a` that returns nil,
`Read a` still returns the value written. -/
theorem delete_then_read_broken :
    replies (newStore tallFirst doubling 0)
      [.write [97] [120], .write [98] [121], .delete [97], .read [97]]
    = .ok [.err none, .err none, .err none, .val (some [120]) none] := rfl

/-- Claim C3, read-after-write across deletes of other keys, evaluated where the
code breaks it: with a first node of height 2, after `Write a`, `Write b` and
`deleteLock a`, `Read b` fails with `errKeyNotFound`. -/
theorem read_after_other_delete_broken :
    replies (newStore tallFirst doubling 0)
      [.write [97] [120], .write [98] [121], .delete [97], .read [98]]
    = .ok [.err none, .err none, .err none, .val none (some error.errKeyNotFound)] := rfl

/-- Claim C4, read miss: on a store built by writes with non-empty keys, `Read` of a
non-empty key that was never written returns a nil value and `errKeyNotFound`, and
`has` returns false; neither changes the store. -/
theorem read_miss (draws : Nat → Nat) (grow : Nat → Nat → Nat) (capacity : Nat)
    (ws : List (Bytes × Bytes)) (hne : ∀ w ∈ ws, w.1 ≠ []) (k : Bytes) (hk0 : k ≠ [])
    (hk : k ∉ ws.map Prod.fst) :
    ∃ s rs, run (newStore draws grow capacity) (ws.map (fun w => Call.write w.1 w.2))
        = .ok (s, rs) ∧
      Read s k = .ok (s, none, some error.errKeyNotFound) ∧ has s k = .ok (s, false) := by
  obtain ⟨s, rs, ns, hrun, -, hv, hf⟩ := built_by_writes draws grow capacity ws hne
  have hnone := (hf k).2 (lastVal_eq_none hk)
  exact ⟨s, rs, hrun, by rw [Read_of_ne hk0, readLock_miss hv k hnone], has_miss hv k hnone⟩

/-- An instance of `read_miss`: the key `b` after `a` and `c` were written. -/
theorem read_miss_witness :
    (∀ w ∈ [([97], [1]), ([99], [2, 3])], (w : Bytes × Bytes).1 ≠ []) ∧
    ([98] : Bytes) ≠ [] ∧
    ([98] : Bytes) ∉ ([([97], [1]), ([99], [2, 3])] : List (Bytes × Bytes)).map Prod.fst ∧
    ∃ s rs, run (newStore tallFirst doubling 0)
        (([([97], [1]), ([99], [2, 3])] : List (Bytes × Bytes)).map
          (fun w => Call.write w.1 w.2)) = .ok (s, rs) ∧
      Read s [98] = .ok (s, none, some error.errKeyNotFound) ∧ has s [98] = .ok (s, false) :=
  ⟨by decide, by decide, by decide,
    read_miss tallFirst doubling 0 _ (by decide) [98] (by decide) (by decide)⟩

/-- Claim C5, empty-key rejection: on every store `Write` and `Read` with an empty
key return `errMissingKey` (and `Read` a nil value) and hand back the store
unchanged in every field. -/
theorem empty_key_rejected (s : store) (v : Bytes) :
    Write s [] v = .ok (s, some error.errMissingKey) ∧
    Read s [] = .ok (s, none, some error.errMissingKey) :=
  ⟨rfl, rfl⟩

/-- Claim C6, a failed delete is fully skipped, evaluated where the code breaks it:
with a node of height 2 for `a`, a failing `deleteLock c` between `Write a` and
`deleteLock a` changes what the following `Read a` returns. -/
theorem failed_delete_observable :
    replies (newStore tallFirst doubling 0)
      [.write [97] [120], .delete [99], .delete [97], .read [97]]
    = .ok [.err none, .err (some error.errKeyNotFound), .err none, .val (some [120]) none] ∧
    replies (newStore tallFirst doubling 0)
      [.write [97] [120], .delete [97], .read [97]]
    = .ok [.err none, .err none, .val none (some error.errKeyNotFound)] :=
  ⟨rfl, rfl⟩

/-- Claim C7, entry-count accounting, evaluated where the code breaks it: after
`Write a` (height 2), `Write b`, `deleteLock b`, `deleteLock a`, all returning nil,
`EntryCount` is 0 while the head still points to the node of `a` on level 0 and
`Read a` succeeds. -/
theorem entry_count_broken :
    ∃ s rs, run (newStore tallFirst doubling 0)
        [.write [97] [120], .write [98] [121], .delete [98], .delete [97]] = .ok (s, rs) ∧
      rs = [.err none, .err none, .err none, .err none] ∧
      EntryCount s = 0 ∧ walk s.entries 0 1 0 = [16] ∧
      Read s [97] = .ok (s, some [120], none) :=
  ⟨_, _, rfl, rfl, rfl, rfl, rfl⟩

/-- Claim C8, live-size accounting, evaluated where the code breaks it: after
`Write a` (height 2), `Write b`, `deleteLock b`, `deleteLock a`, `CacheSize` is 0
while the node of `a`, with a key and a value of one byte each, is still reachable
from the head on level 0. -/
theorem cache_size_broken :
    ∃ s rs, run (newStore tallFirst doubling 0)
        [.write [97] [120], .write [98] [121], .delete [98], .delete [97]] = .ok (s, rs) ∧
      CacheSize s = 0 ∧ walk s.entries 0 1 0 = [16] ∧
      s.entries.getD (16 + nKey) 0 + s.entries.getD (16 + nVal) 0 = 2 :=
  ⟨_, _, rfl, rfl, rfl, rfl⟩

/-- Claim C9, update accounting: on a store built by writes, writing a key whose
last written value is `old` returns nil, leaves `EntryCount` unchanged and changes
`CacheSize` by the length of the new value minus the length of `old`; writing `old`
again leaves `CacheSize` unchanged. -/
theorem update_accounting (draws : Nat → Nat) (grow : Nat → Nat → Nat) (capacity : Nat)
    (ws : List (Bytes × Bytes)) (hne : ∀ w ∈ ws, w.1 ≠ []) (k old v : Bytes)
    (hk : lastVal ws k = some old) :
    ∃ s rs s', run (newStore draws grow capacity) (ws.map (fun w => Call.write w.1 w.2))
        = .ok (s, rs) ∧
      Read s k = .ok (s, some old, none) ∧
      Write s k v = .ok (s', none) ∧
      EntryCount s' = EntryCount s ∧
      CacheSize s' = CacheSize s + ((v.length : Int) - old.length) ∧
      (v = old → CacheSize s' = CacheSize s) := by
  obtain ⟨s, rs, ns, hrun, -, hv, hf⟩ := built_by_writes draws grow capacity ws hne
  obtain ⟨n, hn, hkn, hvn⟩ := (hf k).1 old hk
  have hmem : k ∈ ws.map Prod.fst := by
    by_contra h
    rw [lastVal_eq_none h] at hk
    exact Option.noConfusion hk
  obtain ⟨w, hw, hwk⟩ := List.mem_map.1 hmem
  have hk0 : k ≠ [] := hwk ▸ hne w hw
  obtain ⟨s', hwr, -, htx, hcs, -⟩ := writeLock_update hv hn v
  rw [hkn] at hwr
  rw [hvn] at hcs
  refine ⟨s, rs, s', hrun, ?_, ?_, htx, hcs, ?_⟩
  · rw [Read_of_ne hk0, ← hkn, readLock_hit hv hn, hvn]
  · rw [Write_of_ne v hk0, hwr]
  · intro hvo
    show s'.cacheSize = s.cacheSize
    rw [hcs, hvo]
    omega

/-- An instance of `update_accounting`: `foo`, holding `bar`, is overwritten. -/
theorem update_accounting_witness :
    (∀ w ∈ [([102, 111, 111], [98, 97, 114])], (w : Bytes × Bytes).1 ≠ []) ∧
    lastVal [([102, 111, 111], [98, 97, 114])] [102, 111, 111] = some [98, 97, 114] ∧
    ∃ s rs s', run (newStore tallFirst doubling 0)
        (([([102, 111, 111], [98, 97, 114])] : List (Bytes × Bytes)).map
          (fun w => Call.write w.1 w.2)) = .ok (s, rs) ∧
      Read s [102, 111, 111] = .ok (s, some [98, 97, 114], none) ∧
      Write s [102, 111, 111] [1, 2, 3, 4, 5] = .ok (s', none) ∧
      EntryCount s' = EntryCount s ∧
      CacheSize s' = CacheSize s + ((([1, 2, 3, 4, 5] : Bytes).length : Int)
        - ([98, 97, 114] : Bytes).length) ∧
      (([1, 2, 3, 4, 5] : Bytes) = [98, 97, 114] → CacheSize s' = CacheSize s) :=
  ⟨by decide, by decide,
    update_accounting tallFirst doubling 0 _ (by decide) [102, 111, 111] [98, 97, 114]
      [1, 2, 3, 4, 5] (by decide)⟩

/-- Claim C10, the ordering invariant, evaluated where the code breaks it: after
`Write a` (height 2), `Write b`, `deleteLock b`, `deleteLock a`, the level-0 chain
from the head meets the node of `a` again and again, so the keys along it do not
increase and the chain never reaches pointer 0. -/
theorem ordering_broken :
    ∃ s rs, run (newStore tallFirst doubling 0)
        [.write [97] [120], .write [98] [121], .delete [98], .delete [97]] = .ok (s, rs) ∧
      walk s.entries 0 3 0 = [16, 16, 16] ∧ nxt s.entries 16 0 = 16 ∧
      bytesCompare (keyAt s.entries s.cache 16) (keyAt s.entries s.cache 16) = 0 :=
  ⟨_, _, rfl, rfl, rfl, rfl⟩

/-! ## Operations on an arbitrary store -/

theorem bind_eq_ok {α β : Type} {x : Except Fault α} {f : α → Except Fault β} {b : β}
    (h : (x >>= f) = .ok b) : ∃ a, x = .ok a ∧ f a = .ok b := by
  cases x with
  | error e => cases h
  | ok a => exact ⟨a, rfl, h⟩

theorem setIdx_length {xs ys : List Nat} {i v : Nat} (h : setIdx xs i v = .ok ys) :
    ys.length = xs.length := by
  unfold setIdx at h
  split_ifs at h
  cases h
  simp

/-- A scan that does not record leaves the trail as it was. -/
theorem scanLoop_keep (es : List Nat) (cache k : Bytes) :
    ∀ (fuel entry : Nat) (h : Int) (prev p' : List Nat) (e : Nat) (m : Bool),
      scanLoop es cache k false fuel entry h prev = .ok (p', e, m) → p' = prev := by
  intro fuel
  induction fuel with
  | zero => intro entry h prev p' e m hrun; cases hrun
  | succ fuel ih =>
    intro entry h prev p' e m hrun
    rw [scanLoop] at hrun
    obtain ⟨nextEntry, -, hrun⟩ := bind_eq_ok hrun
    dsimp only at hrun
    by_cases hne : nextEntry ≠ 0
    on_goal 1 =>
      rw [if_pos hne] at hrun
      obtain ⟨o, -, hrun⟩ := bind_eq_ok hrun
      obtain ⟨k1, -, hrun⟩ := bind_eq_ok hrun
      obtain ⟨b, -, hrun⟩ := bind_eq_ok hrun
      rw [pure_eq_ok, ok_bind] at hrun
      generalize bytesCompare b k = y at hrun
    on_goal 2 =>
      rw [if_neg hne, pure_eq_ok, ok_bind] at hrun
      generalize (1 : Int) = y at hrun
    all_goals
      by_cases c1 : y < 0
      · rw [if_pos c1] at hrun
        exact ih _ _ _ _ _ _ hrun
      · rw [if_neg c1] at hrun
        simp only [Bool.false_eq_true, if_false, pure_eq_ok, ok_bind] at hrun
        by_cases c2 : y = 0
        · rw [if_pos c2] at hrun
          cases hrun
          rfl
        · rw [if_neg c2] at hrun
          by_cases c3 : h = 0
          · rw [if_pos c3] at hrun
            cases hrun
            rfl
          · rw [if_neg c3] at hrun
            exact ih _ _ _ _ _ _ hrun

/-- The method `scanEntries` only ever writes the predecessor trail. -/
theorem scanEntries_frame {s s' : store} {k : Bytes} {record : Bool} {e : Nat} {m : Bool}
    (h : scanEntries s k record = .ok (s', e, m)) :
    ∃ prev, s' = { s with prevEntry := prev } ∧ (record = false → prev = s.prevEntry) := by
  unfold scanEntries at h
  obtain ⟨⟨prev, e', m'⟩, h1, h2⟩ := bind_eq_ok h
  simp only [pure_eq_ok, Except.ok.injEq, Prod.mk.injEq] at h2
  refine ⟨prev, h2.1.symm, ?_⟩
  intro hr
  subst hr
  exact scanLoop_keep _ _ _ _ _ _ _ _ _ _ h1

theorem readLock_frame {s s' : store} {k : Bytes} {v : Option Bytes} {e : Option error}
    (h : readLock s k = .ok (s', v, e)) : s' = s := by
  unfold readLock at h
  obtain ⟨⟨s1, n, m⟩, h1, h2⟩ := bind_eq_ok h
  obtain ⟨prev, hs1, hp⟩ := scanEntries_frame h1
  rw [hp rfl, store_eta] at hs1
  subst hs1
  cases m with
  | false =>
    simp only [Bool.false_eq_true, if_false, pure_eq_ok, Except.ok.injEq, Prod.mk.injEq] at h2
    exact h2.1.symm
  | true =>
    simp only [if_true] at h2
    obtain ⟨a, -, h2⟩ := bind_eq_ok h2
    obtain ⟨b, -, h2⟩ := bind_eq_ok h2
    obtain ⟨c, -, h2⟩ := bind_eq_ok h2
    obtain ⟨d, -, h2⟩ := bind_eq_ok h2
    simp only [pure_eq_ok, Except.ok.injEq, Prod.mk.injEq] at h2
    exact h2.1.symm

theorem has_frame {s s' : store} {k : Bytes} {b : Bool} (h : has s k = .ok (s', b)) :
    s' = s := by
  unfold has at h
  obtain ⟨⟨s1, n, m⟩, h1, h2⟩ := bind_eq_ok h
  obtain ⟨prev, hs1, hp⟩ := scanEntries_frame h1
  rw [hp rfl, store_eta] at hs1
  subst hs1
  simp only [pure_eq_ok, Except.ok.injEq, Prod.mk.injEq] at h2
  exact h2.1.symm

/-! ## Growth of the vectors -/

theorem spliceLoop_length (entry : Nat) : ∀ (rest : List Nat) (i : Nat) (es es' : List Nat),
    spliceLoop entry i rest es = .ok es' → es'.length = es.length + rest.length := by
  intro rest
  induction rest with
  | nil =>
    intro i es es' h
    cases h
    rfl
  | cons n rest ih =>
    intro i es es' h
    rw [spliceLoop] at h
    dsimp only at h
    obtain ⟨v, -, h⟩ := bind_eq_ok h
    obtain ⟨es1, h1, h⟩ := bind_eq_ok h
    rw [ih _ _ _ h, setIdx_length h1]
    simp only [List.length_append, List.length_cons, List.length_nil]
    omega

theorem unlinkLoop_length : ∀ (rest : List Nat) (i : Nat) (es es' : List Nat),
    unlinkLoop i rest es = .ok es' → es'.length = es.length := by
  intro rest
  induction rest with
  | nil =>
    intro i es es' h
    cases h
    rfl
  | cons n rest ih =>
    intro i es es' h
    rw [unlinkLoop] at h
    obtain ⟨a, -, h⟩ := bind_eq_ok h
    obtain ⟨b, -, h⟩ := bind_eq_ok h
    obtain ⟨es1, h1, h⟩ := bind_eq_ok h
    rw [ih _ _ _ h, setIdx_length h1]

theorem writeLock_grows {s s' : store} {k v : Bytes} {e : Option error}
    (h : writeLock s k v = .ok (s', e)) :
    s.cache.length ≤ s'.cache.length ∧ s.entries.length ≤ s'.entries.length ∧
      s.mHeight ≤ s'.mHeight := by
  unfold writeLock at h
  obtain ⟨⟨s1, entry, m⟩, h1, h⟩ := bind_eq_ok h
  obtain ⟨prev, rfl, -⟩ := scanEntries_frame h1
  dsimp only at h
  cases m with
  | true =>
    simp only [if_true, appendCache] at h
    obtain ⟨es1, he1, h⟩ := bind_eq_ok h
    obtain ⟨m, -, h⟩ := bind_eq_ok h
    obtain ⟨es2, he2, h⟩ := bind_eq_ok h
    simp only [pure_eq_ok, Except.ok.injEq, Prod.mk.injEq] at h
    obtain ⟨rfl, -⟩ := h
    refine ⟨?_, ?_, le_refl _⟩
    · simp only [List.length_append]; omega
    · show s.entries.length ≤ es2.length
      rw [setIdx_length he2, setIdx_length he1]
  | false =>
    simp only [Bool.false_eq_true, if_false, randomTableHeight, appendCache] at h
    split_ifs at h with hgt
    all_goals
      obtain ⟨prev2, -, h⟩ := bind_eq_ok h
      obtain ⟨trail, -, h⟩ := bind_eq_ok h
      obtain ⟨es', hsp, h⟩ := bind_eq_ok h
      simp only [pure_eq_ok, Except.ok.injEq, Prod.mk.injEq] at h
      obtain ⟨rfl, -⟩ := h
      refine ⟨?_, ?_, ?_⟩
      · simp only [List.length_append]; omega
      · show s.entries.length ≤ es'.length
        rw [spliceLoop_length _ _ _ _ _ hsp]
        simp only [List.length_append]; omega
      · show s.mHeight ≤ _
        first
        | exact le_of_lt hgt
        | exact le_refl _

theorem deleteLock_grows {s s' : store} {k : Bytes} {e : Option error}
    (h : deleteLock s k = .ok (s', e)) :
    s.cache.length ≤ s'.cache.length ∧ s.entries.length ≤ s'.entries.length ∧
      s.mHeight ≤ s'.mHeight := by
  unfold deleteLock at h
  obtain ⟨⟨s1, entry, m⟩, h1, h⟩ := bind_eq_ok h
  obtain ⟨prev, rfl, -⟩ := scanEntries_frame h1
  dsimp only at h
  cases m with
  | false =>
    simp only [Bool.not_false, if_true, pure_eq_ok, Except.ok.injEq, Prod.mk.injEq] at h
    obtain ⟨rfl, -⟩ := h
    exact ⟨le_refl _, le_refl _, le_refl _⟩
  | true =>
    simp only [Bool.not_true, Bool.false_eq_true, if_false] at h
    obtain ⟨height, -, h⟩ := bind_eq_ok h
    obtain ⟨trail, -, h⟩ := bind_eq_ok h
    obtain ⟨es', hun, h⟩ := bind_eq_ok h
    obtain ⟨a, -, h⟩ := bind_eq_ok h
    obtain ⟨b, -, h⟩ := bind_eq_ok h
    simp only [pure_eq_ok, Except.ok.injEq, Prod.mk.injEq] at h
    obtain ⟨rfl, -⟩ := h
    refine ⟨le_refl _, ?_, le_refl _⟩
    show s.entries.length ≤ es'.length
    rw [unlinkLoop_length _ _ _ _ hun]

/-- Claim C12, monotonic growth: whatever the store state and whatever the call
(`Write`, `deleteLock` or `Read`, returning an error or not), the length of the
arena, the length of the index vector and the max height after the call are at
least what they were before it. -/
theorem monotonic_growth (s s' : store) (c : Call) (r : Reply)
    (h : step s c = .ok (s', r)) :
    s.cache.length ≤ s'.cache.length ∧ s.entries.length ≤ s'.entries.length ∧
      s.mHeight ≤ s'.mHeight := by
  cases c with
  | write k v =>
    unfold step at h
    obtain ⟨⟨s1, e⟩, h1, h2⟩ := bind_eq_ok h
    simp only [pure_eq_ok, Except.ok.injEq, Prod.mk.injEq] at h2
    obtain ⟨rfl, -⟩ := h2
    unfold Write at h1
    split_ifs at h1
    · simp only [pure_eq_ok, Except.ok.injEq, Prod.mk.injEq] at h1
      obtain ⟨rfl, -⟩ := h1
      exact ⟨le_refl _, le_refl _, le_refl _⟩
    · exact writeLock_grows h1
  | delete k =>
    unfold step at h
    obtain ⟨⟨s1, e⟩, h1, h2⟩ := bind_eq_ok h
    simp only [pure_eq_ok, Except.ok.injEq, Prod.mk.injEq] at h2
    obtain ⟨rfl, -⟩ := h2
    exact deleteLock_grows h1
  | read k =>
    unfold step at h
    obtain ⟨⟨s1, v, e⟩, h1, h2⟩ := bind_eq_ok h
    simp only [pure_eq_ok, Except.ok.injEq, Prod.mk.injEq] at h2
    obtain ⟨rfl, -⟩ := h2
    unfold Read at h1
    split_ifs at h1
    · simp only [pure_eq_ok, Except.ok.injEq, Prod.mk.injEq] at h1
      obtain ⟨rfl, -⟩ := h1
      exact ⟨le_refl _, le_refl _, le_refl _⟩
    · rw [readLock_frame h1]
      exact ⟨le_refl _, le_refl _, le_refl _⟩

/-- An instance of `monotonic_growth`: the delete of the only key of a store. -/
theorem monotonic_growth_witness :
    ∃ s rs s' r, run (newStore tallFirst doubling 0) [.write [97] [120]] = .ok (s, rs) ∧
      step s (.delete [97]) = .ok (s', r) ∧
      s.cache.length ≤ s'.cache.length ∧ s.entries.length ≤ s'.entries.length ∧
      s.mHeight ≤ s'.mHeight :=
  ⟨_, _, _, _, rfl, rfl, monotonic_growth _ _ (.delete [97]) _ rfl⟩

/-- Claim C13, readers never mutate: whatever the store state and the key, a
`readLock`, `Read` or `has` that returns hands back the store it was given, equal
in every field, the predecessor trail included.  (`Available`, `CacheSize` and
`EntryCount` are projections of the state.) -/
theorem readers_never_mutate (s : store) (key : Bytes) :
    (∀ s' v e, readLock s key = .ok (s', v, e) → s' = s) ∧
    (∀ s' v e, Read s key = .ok (s', v, e) → s' = s) ∧
    (∀ s' b, has s key = .ok (s', b) → s' = s) := by
  refine ⟨fun s' v e h => readLock_frame h, fun s' v e h => ?_, fun s' b h => has_frame h⟩
  unfold Read at h
  split_ifs at h
  · simp only [pure_eq_ok, Except.ok.injEq, Prod.mk.injEq] at h
    exact h.1.symm
  · exact readLock_frame h

/-- An instance of `readers_never_mutate`: a hit and a miss on a store of two keys. -/
theorem readers_never_mutate_witness :
    ∃ s rs, run (newStore tallFirst doubling 0) [.write [97] [120], .write [98] [121]]
        = .ok (s, rs) ∧
      (∃ s' v e, readLock s [97] = .ok (s', v, e) ∧ s' = s) ∧
      (∃ s' b, has s [99] = .ok (s', b) ∧ s' = s) :=
  ⟨_, _, rfl, ⟨_, _, _, rfl, (readers_never_mutate _ [97]).1 _ _ _ rfl⟩,
    ⟨_, _, rfl, (readers_never_mutate _ [99]).2.2 _ _ rfl⟩⟩

/-- Claim C15, the constructor: for every capacity the new store has an empty
arena with `Available` equal to the capacity, max height 1, an index vector that is
exactly the 16-slot head sentinel (height slot 12, all twelve forward pointers 0),
`CacheSize` and `EntryCount` 0, and `Read` of every non-empty key fails with
`errKeyNotFound`. -/
theorem constructor_state (draws : Nat → Nat) (grow : Nat → Nat → Nat) (capacity : Nat)
    (k : Bytes) (hk : k ≠ []) :
    (newStore draws grow capacity).cache.length = 0 ∧
    Available (newStore draws grow capacity) = capacity ∧
    (newStore draws grow capacity).mHeight = 1 ∧
    (newStore draws grow capacity).entries = [0, 0, 0, 12, 0, 0, 0, 0, 0, 0, 0, 0, 0, 0, 0, 0] ∧
    hgt (newStore draws grow capacity).entries 0 = 12 ∧
    (∀ l, l < 12 → nxt (newStore draws grow capacity).entries 0 l = 0) ∧
    CacheSize (newStore draws grow capacity) = 0 ∧
    EntryCount (newStore draws grow capacity) = 0 ∧
    Read (newStore draws grow capacity) k
      = .ok (newStore draws grow capacity, none, some error.errKeyNotFound) := by
  refine ⟨rfl, ?_, rfl, rfl, rfl, ?_, rfl, rfl, ?_⟩
  · simp [Available, newStore]
  · intro l hl
    have : l = 0 ∨ l = 1 ∨ l = 2 ∨ l = 3 ∨ l = 4 ∨ l = 5 ∨ l = 6 ∨ l = 7 ∨ l = 8 ∨ l = 9 ∨
        l = 10 ∨ l = 11 := by omega
    rcases this with rfl | rfl | rfl | rfl | rfl | rfl | rfl | rfl | rfl | rfl | rfl | rfl <;> rfl
  · rw [Read_of_ne hk]
    exact readLock_miss (newStore_valid draws grow capacity) k (by simp)

/-- An instance of `constructor_state`: capacity 2048 and the key `a`. -/
theorem constructor_state_witness :
    ([97] : Bytes) ≠ [] ∧
    (newStore tallFirst doubling 2048).cache.length = 0 ∧
    Available (newStore tallFirst doubling 2048) = (2048 : Nat) ∧
    (newStore tallFirst doubling 2048).mHeight = 1 ∧
    (newStore tallFirst doubling 2048).entries
      = [0, 0, 0, 12, 0, 0, 0, 0, 0, 0, 0, 0, 0, 0, 0, 0] ∧
    hgt (newStore tallFirst doubling 2048).entries 0 = 12 ∧
    (∀ l, l < 12 → nxt (newStore tallFirst doubling 2048).entries 0 l = 0) ∧
    CacheSize (newStore tallFirst doubling 2048) = 0 ∧
    EntryCount (newStore tallFirst doubling 2048) = 0 ∧
    Read (newStore tallFirst doubling 2048) [97]
      = .ok (newStore tallFirst doubling 2048, none, some error.errKeyNotFound) :=
  ⟨by decide, constructor_state tallFirst doubling 2048 [97] (by decide)⟩

/-! ## The arena helper -/

/-- Copying `p` into a backing array at offset `n`, with room for all of `p`. -/
theorem copy_at_end (A : List Nat) (n : Nat) (p : Bytes) (ht : n + p.length ≤ A.length) :
    (A.take n ++ p.take (min (n + p.length - n) p.length)
        ++ A.drop (n + min (n + p.length - n) p.length)).take (n + p.length)
      = A.take n ++ p ∧
    (A.take n ++ p.take (min (n + p.length - n) p.length)
        ++ A.drop (n + min (n + p.length - n) p.length)).length = A.length := by
  have e1 : min (n + p.length - n) p.length = p.length := by omega
  have e2 : (A.take n).length = n := by
    rw [List.length_take]; omega
  rw [e1, List.take_length]
  constructor
  · have e3 : (A.take n ++ p).length = n + p.length := by
      rw [List.length_append, e2]
    rw [List.take_append_of_le_length (by omega), ← e3, List.take_length]
  · simp only [List.length_append, List.length_drop, e2]
    omega

/-- The fresh backing array after `copy(newBuf, c.buf)`: the old bytes, then zeros. -/
theorem copy_fresh (arr : List Nat) (n total : Nat) (hn : n ≤ arr.length) (ht : n ≤ total) :
    (((List.replicate (total * 2) 0).take 0
        ++ (arr.take n).take (min (total - 0) (arr.take n).length)
        ++ (List.replicate (total * 2) 0).drop (0 + min (total - 0) (arr.take n).length)).take n
      = arr.take n) ∧
    ((List.replicate (total * 2) 0).take 0
        ++ (arr.take n).take (min (total - 0) (arr.take n).length)
        ++ (List.replicate (total * 2) 0).drop (0 + min (total - 0) (arr.take n).length)).length
      = total * 2 := by
  have e2 : (arr.take n).length = n := by
    rw [List.length_take]; omega
  have e1 : min (total - 0) (arr.take n).length = n := by
    rw [e2]; omega
  rw [e1, List.take_zero, List.nil_append]
  have e3 : List.take n (List.take n arr) = List.take n arr := by
    rw [List.take_take]; simp
  rw [e3]
  constructor
  · rw [List.take_append_of_le_length (by omega)]
    exact e3
  · simp only [List.length_append, List.length_drop, List.length_replicate, e2]
    omega

/-- Claim C14, the postcondition of `appendBytes`: on a buffer of length `n` within
its capacity `c`, the call returns, the bytes of the buffer afterwards are the old
bytes followed by `p` (so the length is `n + len(p)`, the old bytes keep their
offsets and `p` sits at offset `n`), and the capacity is still `c` when
`n + len(p) ≤ c` and exactly `2 * (n + len(p))` otherwise; the other fields are
untouched. -/
theorem appendBytes_post (c : binyCache) (p : Bytes) (hwf : c.buf.len ≤ c.buf.cap) :
    ∃ c', appendBytes c p = .ok c' ∧
      c'.buf.bytes = c.buf.bytes ++ p ∧
      c'.buf.len = c.buf.len + p.length ∧
      c'.buf.cap = (if c.buf.len + p.length ≤ c.buf.cap then c.buf.cap
        else 2 * (c.buf.len + p.length)) ∧
      c'.off = c.off ∧ c'.bootStrap = c.bootStrap := by
  obtain ⟨⟨arr, n⟩, off, boot⟩ := c
  simp only [byteSlice.cap] at hwf
  by_cases hgrow : n + p.length > arr.length
  · have hle : ¬ (n + p.length ≤ arr.length) := by omega
    have h1 : n + p.length ≤ (n + p.length) * 2 := by omega
    obtain ⟨f1, f2⟩ := copy_fresh arr n (n + p.length) hwf (by omega)
    obtain ⟨A, hA⟩ : ∃ A : List Nat, A = (List.replicate ((n + p.length) * 2) 0).take 0
        ++ (arr.take n).take (min (n + p.length - 0) (arr.take n).length)
        ++ (List.replicate ((n + p.length) * 2) 0).drop
          (0 + min (n + p.length - 0) (arr.take n).length) := ⟨_, rfl⟩
    rw [← hA] at f1 f2
    obtain ⟨g1, g2⟩ := copy_at_end A n p (by rw [f2]; omega)
    refine ⟨⟨⟨A.take n ++ p.take (min (n + p.length - n) p.length)
        ++ A.drop (n + min (n + p.length - n) p.length), n + p.length⟩, off, boot⟩,
      ?_, ?_, rfl, ?_, rfl, rfl⟩
    · simp only [appendBytes, byteSlice.cap, byteSlice.bytes, hgrow, if_true, makeSlice, h1,
        ok_bind, copyInto, Nat.zero_le, pure_eq_ok, reslice, ← hA, f2, le_refl,
        Nat.le_add_right]
    · show List.take (n + p.length) _ = List.take n arr ++ p
      rw [g1, f1]
    · show List.length _ = _
      rw [g2, f2]
      show _ = if n + p.length ≤ arr.length then arr.length else 2 * (n + p.length)
      rw [if_neg hle]
      omega
  · have hle : n + p.length ≤ arr.length := by omega
    obtain ⟨g1, g2⟩ := copy_at_end arr n p hle
    refine ⟨⟨⟨arr.take n ++ p.take (min (n + p.length - n) p.length)
        ++ arr.drop (n + min (n + p.length - n) p.length), n + p.length⟩, off, boot⟩,
      ?_, ?_, rfl, ?_, rfl, rfl⟩
    · simp only [appendBytes, byteSlice.cap, hgrow, if_false, pure_eq_ok, ok_bind, reslice, hle,
        if_true, copyInto, Nat.le_add_right]
    · show List.take (n + p.length) _ = List.take n arr ++ p
      exact g1
    · show List.length _ = _
      rw [g2]
      show _ = if n + p.length ≤ arr.length then arr.length else 2 * (n + p.length)
      rw [if_pos hle]

/-- An instance of `appendBytes_post`: three bytes appended to a full buffer of two. -/
theorem appendBytes_post_witness :
    (2 : Nat) ≤ ([1, 2] : List Nat).length ∧
    ∃ c', appendBytes ⟨⟨[1, 2], 2⟩, 0, []⟩ [5, 6, 7] = .ok c' ∧
      c'.buf.bytes = [1, 2] ++ [5, 6, 7] ∧
      c'.buf.len = 2 + 3 ∧
      c'.buf.cap = 10 ∧ c'.off = 0 ∧ c'.bootStrap = [] :=
  ⟨by decide, appendBytes_post ⟨⟨[1, 2], 2⟩, 0, []⟩ [5, 6, 7] (by decide)⟩

/-! ## Height selection -/

theorem leadingDivisible_le : ∀ (n : Nat) (rnd : Nat → Nat), leadingDivisible n rnd ≤ n := by
  intro n
  induction n with
  | zero => intro rnd; exact le_refl _
  | succ n ih =>
    intro rnd
    unfold leadingDivisible
    split_ifs
    · have := ih (fun j => rnd (j + 1)); omega
    · omega

/-- The loop of `randomTableHeight` with enough fuel left to reach `tableHeight`: it
adds the number of leading divisible draws to `i`, stops at `tableHeight`, and
consumes one draw per test of a draw. -/
theorem heightLoop_spec : ∀ (fuel i n : Nat) (rnd : Nat → Nat), 1 ≤ i → i ≤ tableHeight →
    tableHeight < fuel + i → tableHeight ≤ n + i →
    (heightLoop fuel i rnd).1 = min tableHeight (i + leadingDivisible n rnd) ∧
    (heightLoop fuel i rnd).2
      = fun j => rnd (j + min (tableHeight - i) (1 + leadingDivisible n rnd)) := by
  intro fuel
  induction fuel with
  | zero => intro i n rnd h1 h2 h3 _; omega
  | succ fuel ih =>
    intro i n rnd h1 h2 h3 h4
    unfold heightLoop
    by_cases hi : i < tableHeight
    · rw [if_pos hi]
      obtain ⟨n', rfl⟩ : ∃ n', n = n' + 1 := ⟨n - 1, by omega⟩
      by_cases hd : rnd 0 % 4 = 0
      · rw [if_pos hd]
        obtain ⟨e1, e2⟩ := ih (i + 1) n' (fun j => rnd (j + 1)) (by omega) (by omega) (by omega)
          (by omega)
        have hl : leadingDivisible (n' + 1) rnd = 1 + leadingDivisible n' (fun j => rnd (j + 1)) := by
          rw [leadingDivisible, if_pos hd]
        rw [e1, e2, hl]
        constructor
        · congr 1; omega
        · funext j
          congr 1
          omega
      · rw [if_neg hd]
        have hl : leadingDivisible (n' + 1) rnd = 0 := by
          rw [leadingDivisible, if_neg hd]
        rw [hl]
        constructor
        · show i = min tableHeight (i + 0)
          omega
        · funext j
          show rnd (j + 1) = rnd (j + min (tableHeight - i) (1 + 0))
          congr 1
          omega
    · rw [if_neg hi]
      have hi12 : i = tableHeight := by omega
      constructor
      · show i = min tableHeight (i + _)
        omega
      · funext j
        show rnd j = rnd (j + min (tableHeight - i) _)
        congr 1
        omega

/-- Claim C19, height selection: for every stream of draws and every bound `n ≥ 11`
on how far to look, `randomTableHeight` returns `min(12, 1 + j)`, `j` being the
number of leading draws divisible by 4 (among the first `n`); the result lies in
`1..12`, the stream is advanced by `min(11, 1 + j)` draws (at most 11), nothing
else of the store changes, and the result depends on the stream only. -/
theorem height_selection (s : store) (n : Nat) (hn : 11 ≤ n) :
    (randomTableHeight s).2 = min 12 (1 + leadingDivisible n s.rnd) ∧
    1 ≤ (randomTableHeight s).2 ∧ (randomTableHeight s).2 ≤ 12 ∧
    (randomTableHeight s).1
      = { s with rnd := fun j => s.rnd (j + min 11 (1 + leadingDivisible n s.rnd)) } ∧
    min 11 (1 + leadingDivisible n s.rnd) ≤ 11 ∧
    (∀ s' : store, s'.rnd = s.rnd → (randomTableHeight s').2 = (randomTableHeight s).2) := by
  obtain ⟨e1, e2⟩ := heightLoop_spec tableHeight 1 n s.rnd (le_refl _) (by decide) (by decide)
    (by simp only [tableHeight]; omega)
  have h1 : (randomTableHeight s).2 = min 12 (1 + leadingDivisible n s.rnd) := e1
  refine ⟨h1, ?_, ?_, ?_, ?_, ?_⟩
  · rw [h1]; omega
  · rw [h1]; omega
  · show ({ s with rnd := (heightLoop tableHeight 1 s.rnd).2 } : store) = _
    rw [e2]
    rfl
  · omega
  · intro s' hs'
    show (heightLoop tableHeight 1 s'.rnd).1 = (heightLoop tableHeight 1 s.rnd).1
    rw [hs']

/-- An instance of `height_selection`: the stream `tallFirst`, looked at up to its
eleventh draw, gives height 2 and is advanced by two draws. -/
theorem height_selection_witness :
    (11 : Nat) ≤ 11 ∧
    (randomTableHeight (newStore tallFirst doubling 0)).2
      = min 12 (1 + leadingDivisible 11 (newStore tallFirst doubling 0).rnd) ∧
    1 ≤ (randomTableHeight (newStore tallFirst doubling 0)).2 ∧
    (randomTableHeight (newStore tallFirst doubling 0)).2 ≤ 12 ∧
    (randomTableHeight (newStore tallFirst doubling 0)).1
      = { newStore tallFirst doubling 0 with
          rnd := fun j => (newStore tallFirst doubling 0).rnd
            (j + min 11 (1 + leadingDivisible 11 (newStore tallFirst doubling 0).rnd)) } ∧
    min 11 (1 + leadingDivisible 11 (newStore tallFirst doubling 0).rnd) ≤ 11 ∧
    (∀ s' : store, s'.rnd = (newStore tallFirst doubling 0).rnd →
      (randomTableHeight s').2 = (randomTableHeight (newStore tallFirst doubling 0)).2) :=
  ⟨le_refl _, height_selection (newStore tallFirst doubling 0) 11 (le_refl _)⟩

/-! ## The unlink loop of `deleteLock` -/

theorem unlinkLoop_spec : ∀ (rest : List Nat) (i : Nat) (es : List Nat),
    (∀ j, j < rest.length → (i + j) + tableOffset + rest.getD j 0 < es.length) →
    (∀ j, j < rest.length →
      es.getD ((i + j) + tableOffset + rest.getD j 0) 0 + nNext + (i + j) < es.length) →
    (∀ j j', j < rest.length → j' < rest.length → j ≠ j' →
      (i + j) + tableOffset + rest.getD j 0 ≠ (i + j') + tableOffset + rest.getD j' 0) →
    (∀ j j', j < rest.length → j' < rest.length →
      es.getD ((i + j) + tableOffset + rest.getD j 0) 0 + nNext + (i + j)
        ≠ (i + j') + tableOffset + rest.getD j' 0) →
    ∃ es', unlinkLoop i rest es = .ok es' ∧ es'.length = es.length ∧
      (∀ j, j < rest.length → es'.getD ((i + j) + tableOffset + rest.getD j 0) 0
        = es.getD (es.getD ((i + j) + tableOffset + rest.getD j 0) 0 + nNext + (i + j)) 0) ∧
      (∀ a, (∀ j, j < rest.length → a ≠ (i + j) + tableOffset + rest.getD j 0) →
        es'.getD a 0 = es.getD a 0) := by
  intro rest
  induction rest with
  | nil =>
    intro i es _ _ _ _
    exact ⟨es, rfl, rfl, fun j hj => by simp at hj, fun a _ => rfl⟩
  | cons n rest ih =>
    intro i es hb hr hd hrd
    have hm : i + tableOffset + n < es.length := by
      have := hb 0 (by simp)
      simpa using this
    have hr0 : es.getD (i + tableOffset + n) 0 + nNext + i < es.length := by
      have := hr 0 (by simp)
      simpa using this
    have hlen1 : (es.set (i + tableOffset + n)
        (es.getD (es.getD (i + tableOffset + n) 0 + nNext + i) 0)).length = es.length := by
      simp
    -- the slots of the later iterations differ from the first slot
    have hne : ∀ j, j < rest.length →
        (i + 1 + j) + tableOffset + rest.getD j 0 ≠ i + tableOffset + n := by
      intro j hj
      have := hd (j + 1) 0 (by simp; omega) (by simp) (by omega)
      simp only [List.getD_cons_succ, List.getD_cons_zero] at this
      intro h
      apply this
      omega
    have hsame : ∀ j, j < rest.length →
        (es.set (i + tableOffset + n)
          (es.getD (es.getD (i + tableOffset + n) 0 + nNext + i) 0)).getD
            ((i + 1 + j) + tableOffset + rest.getD j 0) 0
          = es.getD ((i + (j + 1)) + tableOffset + (n :: rest).getD (j + 1) 0) 0 := by
      intro j hj
      rw [getD_set_ne _ (Ne.symm (hne j hj))]
      simp only [List.getD_cons_succ]
      congr 1
      omega
    obtain ⟨es', hrun, hlen, h1, h2⟩ :=
      ih (i + 1) (es.set (i + tableOffset + n)
          (es.getD (es.getD (i + tableOffset + n) 0 + nNext + i) 0))
        (by
          intro j hj
          have := hb (j + 1) (by simp; omega)
          simp only [List.getD_cons_succ] at this
          rw [hlen1]
          omega)
        (by
          intro j hj
          rw [hsame j hj, hlen1]
          have := hr (j + 1) (by simp; omega)
          omega)
        (by
          intro j j' hj hj' hjj
          have := hd (j + 1) (j' + 1) (by simp; omega) (by simp; omega) (by omega)
          simp only [List.getD_cons_succ] at this
          omega)
        (by
          intro j j' hj hj'
          rw [hsame j hj]
          have := hrd (j + 1) (j' + 1) (by simp; omega) (by simp; omega)
          simp only [List.getD_cons_succ] at this ⊢
          omega)
    refine ⟨es', ?_, by rw [hlen, hlen1], ?_, ?_⟩
    · rw [unlinkLoop]
      rw [idx_of_lt hm, ok_bind, idx_of_lt hr0, ok_bind, setIdx_of_lt _ hm, ok_bind]
      exact hrun
    · intro j hj
      cases j with
      | zero =>
        simp only [List.getD_cons_zero, Nat.add_zero]
        rw [h2 _ (fun j hj => Ne.symm (hne j hj))]
        exact getD_set_eq _ hm
      | succ j =>
        have hj' : j < rest.length := by simpa using hj
        have e := h1 j hj'
        rw [hsame j hj'] at e
        have e2 : (i + (j + 1)) + tableOffset + (n :: rest).getD (j + 1) 0
            = (i + 1 + j) + tableOffset + rest.getD j 0 := by
          simp only [List.getD_cons_succ]; omega
        rw [e2, e, ← e2]
        have hr1 := hrd (j + 1) 0 hj (by simp)
        simp only [List.getD_cons_zero, Nat.add_zero] at hr1
        have e3 : i + 1 + j = i + (j + 1) := by omega
        rw [e3, getD_set_ne _ (Ne.symm hr1)]
    · intro a ha
      rw [h2 a (fun j hj => by
        have := ha (j + 1) (by simp; omega)
        simp only [List.getD_cons_succ] at this
        intro h
        apply this
        omega)]
      have h0 := ha 0 (by simp)
      simp only [List.getD_cons_zero, Nat.add_zero] at h0
      exact getD_set_ne _ (Ne.symm h0)

/-! ## The insert path, in detail -/

/-- The raw effect of appending a record and splicing it in behind the recorded
predecessors. -/
theorem splice_facts {es : List Nat} {cache : Bytes} {mH : Nat} {ns lo hi : List Nat}
    (wf : WF es cache mH ns) (hns : ns = lo ++ hi) (c0 kl vl : Nat)
    {H : Nat} {prev : List Nat} (hH : H ≤ prev.length)
    (hpred : ∀ l, l < H → IsPred es lo l (prev.getD l 0)) :
    ∃ es', spliceLoop es.length 0 (prev.take H) (es ++ [c0, kl, vl, H]) = .ok es' ∧
      Spliced es es' H (fun l => prev.getD l 0) kl vl := by
  have htl : (prev.take H).length = H := by simp [hH]
  have hpns : ∀ l, l < H → (prev.getD l 0 = 0 ∨ prev.getD l 0 ∈ ns) := by
    intro l hl
    exact (hpred l hl).mem.imp id (fun h => by rw [hns]; exact List.mem_append_left _ h)
  have hpslot : ∀ l, l < H → prev.getD l 0 + l + nNext < es.length := by
    intro l hl
    have := wf.slot_lt (hpns l hl) (hpred l hl).lt
    omega
  obtain ⟨es', hrun, hlen, h1, h2, h3⟩ :=
    spliceLoop_spec es.length (prev.take H) 0 (es ++ [c0, kl, vl, H])
      (by
        intro j hj
        rw [htl] at hj
        rw [getD_take_lt _ hj]
        have := hpslot j hj
        simp only [List.length_append, List.length_cons, List.length_nil]
        omega)
      (by
        intro j j' hj hj' hne heq
        rw [htl] at hj hj'
        rw [getD_take_lt _ hj, getD_take_lt _ hj'] at heq
        have hpp : prev.getD j 0 = prev.getD j' 0 :=
          wf.region_disj (hpns j hj) (hpns j' hj') (a := prev.getD j 0 + nNext + j)
            ⟨by omega, by have := (hpred j hj).lt; omega⟩
            ⟨by omega, by have := (hpred j' hj').lt; omega⟩
        omega)
  have hlen0 : (es ++ [c0, kl, vl, H]).length = es.length + 4 := by simp
  have hfresh : ∀ j, j < 4 → ∀ l, l < (prev.take H).length →
      es.length + j ≠ (prev.take H).getD l 0 + (0 + l) + nNext := by
    intro j _ l hl
    rw [htl] at hl
    rw [getD_take_lt _ hl]
    have := hpslot l hl
    omega
  have hr := getD_rec es c0 kl vl H
  refine ⟨es', hrun, ?_⟩
  refine
    { len := by rw [hlen, htl, hlen0]; rfl
      rec_key := by
        rw [← hr.2.1]
        exact h2 _ (by rw [hlen0]; simp only [nKey]; omega) (hfresh 1 (by omega))
      rec_val := by
        rw [← hr.2.2.1]
        exact h2 _ (by rw [hlen0]; simp only [nVal]; omega) (hfresh 2 (by omega))
      rec_hgt := by
        rw [← hr.2.2.2]
        exact h2 _ (by rw [hlen0]; simp only [nHeight]; omega) (hfresh 3 (by omega))
      pred_next := ?_
      new_next := ?_
      frame := ?_ }
  · intro l hl
    have := h1 l (by rw [htl]; exact hl)
    rw [getD_take_lt _ hl, Nat.zero_add] at this
    exact this
  · intro l hl
    have := h3 l (by rw [htl]; exact hl)
    rw [getD_take_lt _ hl, Nat.zero_add, hlen0, getD_append_rec _ _ _ _ (hpslot l hl)] at this
    exact this
  · intro a ha hne
    rw [h2 a (by rw [hlen0]; omega) ?_, getD_append_rec _ _ _ _ ha]
    intro j hj
    rw [htl] at hj
    rw [getD_take_lt _ hj, Nat.zero_add]
    exact hne j hj

theorem writeLock_insert_full {s : store} {ns : List Nat} (hv : Valid s ns) (k v : Bytes)
    (hk : ∀ n ∈ ns, keyAt s.entries s.cache n ≠ k) :
    ∃ s' lo hi H, writeLock s k v = .ok (s', none) ∧ ns = lo ++ hi ∧
      Valid s' (lo ++ s.entries.length :: hi) ∧
      s'.txCount = s.txCount + 1 ∧
      s'.cacheSize = s.cacheSize + ((k.length : Int) + v.length) ∧
      s'.cache = s.cache ++ (k ++ v) ∧ s.mHeight ≤ s'.mHeight ∧
      keyAt s'.entries s'.cache s.entries.length = k ∧
      1 ≤ H ∧ H ≤ tableHeight ∧
      (∀ l, l < H → IsPred s.entries lo l (s'.prevEntry.getD l 0)) ∧
      Spliced s.entries s'.entries H (fun l => s'.prevEntry.getD l 0) k.length v.length := by
  obtain ⟨prev', e, lo, hi, hrun, hplen, -, hsplit, hlo, hhi, hpost⟩ :=
    scanEntries_miss hv k true hk
  obtain ⟨hP, -⟩ := hpost rfl
  obtain ⟨wf, hprev⟩ := hv
  obtain ⟨hH1, hH12⟩ := heightLoop_bounds tableHeight 1 s.rnd (le_refl _) (by simp [tableHeight])
  unfold writeLock
  rw [hrun]
  simp only [ok_bind, Bool.false_eq_true, if_false, randomTableHeight, appendCache]
  generalize (heightLoop tableHeight 1 s.rnd).1 = H at hH1 hH12 ⊢
  generalize (heightLoop tableHeight 1 s.rnd).2 = rnd'
  by_cases hgt : H > s.mHeight
  · simp only [hgt, if_true]
    obtain ⟨prev'', hreset, hlen'', hz, ho⟩ :=
      resetLoop_spec (H - s.mHeight) s.mHeight prev' (by rw [hplen]; omega)
    have hpred : ∀ l, l < H → IsPred s.entries lo l (prev''.getD l 0) := by
      intro l hl
      by_cases hlm : l < s.mHeight
      · rw [ho l (Or.inl hlm)]
        exact hP l hlm
      · rw [hz l (by omega) (by omega)]
        refine ⟨[], lo, rfl, by rw [wf.head_hgt]; omega, ?_⟩
        intro y hy
        have := wf.hgt_le y (by rw [hsplit]; exact List.mem_append_left _ hy)
        omega
    obtain ⟨es', hsp, -, wf', hke, -⟩ :=
      splice_insert wf hsplit k v hlo hhi hH1 (le_refl H) (le_of_lt hgt) hH12
        (hlen''.trans hplen) hpred
    obtain ⟨es2, hsp2, hfacts⟩ := splice_facts wf hsplit s.cache.length k.length v.length
      (by rw [hlen'', hplen]; exact hH12) hpred
    rw [hsp] at hsp2
    cases hsp2
    rw [hreset, ok_bind, sliceOf_zero (by rw [hlen'', hplen]; exact hH12), ok_bind, hsp, ok_bind]
    exact ⟨_, lo, hi, H, rfl, hsplit, ⟨wf', hlen''.trans hplen⟩, rfl, rfl, rfl, le_of_lt hgt, hke,
      hH1, hH12, hpred, hfacts⟩
  · simp only [hgt, if_false]
    have hpred : ∀ l, l < H → IsPred s.entries lo l (prev'.getD l 0) :=
      fun l hl => hP l (by omega)
    obtain ⟨es', hsp, -, wf', hke, -⟩ :=
      splice_insert wf hsplit k v hlo hhi hH1 (Nat.le_of_not_lt hgt) (le_refl _) wf.mH_le
        hplen hpred
    obtain ⟨es2, hsp2, hfacts⟩ := splice_facts wf hsplit s.cache.length k.length v.length
      (by rw [hplen]; exact hH12) hpred
    rw [hsp] at hsp2
    cases hsp2
    rw [pure_eq_ok, ok_bind, sliceOf_zero (by rw [hplen]; exact hH12), ok_bind, hsp, ok_bind]
    exact ⟨_, lo, hi, H, rfl, hsplit, ⟨wf', hplen⟩, rfl, rfl, rfl, le_refl _, hke,
      hH1, hH12, hpred, hfacts⟩

/-! ## Write followed by delete -/

/-- A skip list stays what it is when the index vector and the arena only grow. -/
theorem WF.extend {es es' : List Nat} {cache cache' : Bytes} {mH mH' : Nat} {ns : List Nat}
    (wf : WF es cache mH ns) (hlen : es.length ≤ es'.length)
    (hag : ∀ a, a < es.length → es'.getD a 0 = es.getD a 0)
    (hc : ∃ z, cache' = cache ++ z) (hm : mH ≤ mH') (hm12 : mH' ≤ tableHeight) :
    WF es' cache' mH' ns ∧
    (∀ x ∈ ns, keyAt es' cache' x = keyAt es cache x) ∧
    (∀ x ∈ ns, valAt es' cache' x = valAt es cache x) := by
  have hrec : ∀ x ∈ ns, ∀ j, j < 4 → es'.getD (x + j) 0 = es.getD (x + j) 0 := by
    intro x hx j hj
    have h1 := wf.ns_fit x hx
    have h2 := wf.hgt_pos x hx
    exact hag _ (by simp only [nNext] at h1; omega)
  have hkey : ∀ x ∈ ns, keyAt es' cache' x = keyAt es cache x := by
    intro x hx
    have := wf.data_fit x hx
    exact keyAt_congr (hrec x hx 0 (by omega)) (hrec x hx 1 (by omega)) (by omega) hc
  have hval : ∀ x ∈ ns, valAt es' cache' x = valAt es cache x := by
    intro x hx
    exact valAt_congr (hrec x hx 0 (by omega)) (hrec x hx 1 (by omega)) (hrec x hx 2 (by omega))
      (wf.data_fit x hx) hc
  refine ⟨?_, hkey, hval⟩
  apply wf.congr hlen hm hm12
  · intro x hx
    rcases hx with rfl | hx
    · have := wf.count
      exact hag _ (by simp only [nHeight, tableHeight] at *; omega)
    · exact hrec x hx 3 (by omega)
  · intro x hx
    have h0 : es'.getD x 0 = es.getD x 0 := hrec x hx 0 (by omega)
    have h1 : es'.getD (x + nKey) 0 = es.getD (x + nKey) 0 := hrec x hx 1 (by omega)
    have h2 : es'.getD (x + nVal) 0 = es.getD (x + nVal) 0 := hrec x hx 2 (by omega)
    rw [h0, h1, h2]
    obtain ⟨z, rfl⟩ := hc
    have := wf.data_fit x hx
    simp only [List.length_append]
    omega
  · exact hkey
  · intro x hx l hl
    exact hag _ (wf.slot_lt hx hl)

/-- Deleting the key that was just inserted: the trail left by the insert is the
trail the unlink loop needs, and the old index vector comes back. -/
theorem deleteLock_fresh {s s1 : store} {ns lo hi : List Nat} {k : Bytes} {H kl vl : Nat}
    (hv : Valid s ns) (hns : ns = lo ++ hi)
    (hv1 : Valid s1 (lo ++ s.entries.length :: hi))
    (hkey : keyAt s1.entries s1.cache s.entries.length = k)
    (hH12 : H ≤ tableHeight)
    (hpred : ∀ l, l < H → IsPred s.entries lo l (s1.prevEntry.getD l 0))
    (hsp : Spliced s.entries s1.entries H (fun l => s1.prevEntry.getD l 0) kl vl) :
    ∃ s2, deleteLock s1 k = .ok (s2, none) ∧
      s2.txCount = s1.txCount - 1 ∧ s2.cacheSize = s1.cacheSize - ((kl : Int) + vl) ∧
      s2.cache = s1.cache ∧ s2.mHeight = s1.mHeight ∧ s2.prevEntry.length = tableHeight ∧
      s2.entries.length = s1.entries.length ∧
      (∀ a, a < s.entries.length → s2.entries.getD a 0 = s.entries.getD a 0) := by
  obtain ⟨wf, -⟩ := hv
  have he : s.entries.length ∈ lo ++ s.entries.length :: hi := by simp
  obtain ⟨prev', lo2, hi2, hrun, hplen, -, hsplit2, hpost⟩ := scanEntries_hit hv1 true he
  rw [hkey] at hrun
  obtain ⟨hP, hU⟩ := hpost rfl
  have wf1 := hv1.1
  have hHe : hgt s1.entries s.entries.length = H := hsp.rec_hgt
  -- the split found by the scan is the split of the insert
  have hlo2 : lo2 = lo := by
    have hnd : (lo ++ s.entries.length :: hi).Nodup := (List.nodup_cons.1 wf1.nodup).2
    exact (split_unique hnd hsplit2 rfl).1
  subst hlo2
  have hpns : ∀ l, l < H → (s1.prevEntry.getD l 0 = 0 ∨ s1.prevEntry.getD l 0 ∈ ns) := by
    intro l hl
    exact (hpred l hl).mem.imp id (fun h => by rw [hns]; exact List.mem_append_left _ h)
  have hpslot : ∀ l, l < H → s1.prevEntry.getD l 0 + l + nNext < s.entries.length := by
    intro l hl
    have := wf.slot_lt (hpns l hl) (hpred l hl).lt
    omega
  -- heights of the old nodes are untouched by the insert
  have hhgt : ∀ x, (x = 0 ∨ x ∈ ns) → hgt s1.entries x = hgt s.entries x := by
    intro x hx
    have hreg : x + nHeight < s.entries.length := by
      rcases hx with rfl | hx
      · have := wf.count
        simp only [nHeight, tableHeight] at *; omega
      · have h1 := wf.ns_fit x hx
        have h2 := wf.hgt_pos x hx
        simp only [nHeight, nNext] at *; omega
    apply hsp.frame _ hreg
    intro l hl heq
    have hxp : x = s1.prevEntry.getD l 0 :=
      wf.region_disj hx (hpns l hl) (a := x + nHeight)
        ⟨by omega, by
          rcases hx with rfl | hx
          · rw [wf.head_hgt]; simp only [nHeight, nNext, tableHeight]; omega
          · have := wf.hgt_pos x hx; simp only [nHeight, nNext]; omega⟩
        ⟨by simp only [nNext] at heq; omega, by have := (hpred l hl).lt; omega⟩
    simp only [nHeight, nNext] at heq
    omega
  -- the trail after the scan agrees with the trail of the insert below `H`
  have htrail : ∀ l, l < H → prev'.getD l 0 = s1.prevEntry.getD l 0 := by
    intro l hl
    by_cases hl1 : l + 1 < H
    · exact hU l (Or.inr (by rw [hHe]; exact hl1))
    · have hlm : l < s1.mHeight := by
        have := wf1.hgt_le _ he
        rw [hHe] at this
        omega
      obtain ⟨A, B, hs, hlt, hB⟩ := hP l hlm (by rw [hHe]; omega)
      obtain ⟨A', B', hs', hlt', hB'⟩ := hpred l hl
      obtain ⟨hq, hBlo⟩ := split_mem hs
      have hq' : prev'.getD l 0 = 0 ∨ prev'.getD l 0 ∈ ns :=
        hq.imp id (fun h => by rw [hns]; exact List.mem_append_left _ h)
      rw [hhgt _ hq'] at hlt
      refine last_unique (P := fun y => l < hgt s.entries y) hs hs' hlt hlt' ?_ ?_
      · intro y hy
        have := hB y hy
        rw [hhgt y (Or.inr (by rw [hns]; exact List.mem_append_left _ (hBlo y hy)))] at this
        omega
      · intro y hy
        have := hB' y hy
        omega
  have hlen1 : s1.entries.length = s.entries.length + nNext + H := hsp.len
  have hHp : H ≤ prev'.length := by rw [hplen]; exact hH12
  have htl : (prev'.take H).length = H := by simp [hHp]
  have hslot : ∀ j, j < H → (0 + j) + tableOffset + (prev'.take H).getD j 0
      = s1.prevEntry.getD j 0 + j + nNext := by
    intro j hj
    rw [getD_take_lt _ hj, htrail j hj]
    simp only [tableOffset, nNext]
    omega
  obtain ⟨es2, hun, hlen2, h1, h2⟩ :=
    unlinkLoop_spec (prev'.take H) 0 s1.entries
      (by
        intro j hj
        rw [htl] at hj
        rw [hslot j hj, hlen1]
        have := hpslot j hj
        omega)
      (by
        intro j hj
        rw [htl] at hj
        rw [hslot j hj, hsp.pred_next j hj, hlen1]
        omega)
      (by
        intro j j' hj hj' hne heq
        rw [htl] at hj hj'
        rw [hslot j hj, hslot j' hj'] at heq
        have hpp : s1.prevEntry.getD j 0 = s1.prevEntry.getD j' 0 :=
          wf.region_disj (hpns j hj) (hpns j' hj') (a := s1.prevEntry.getD j 0 + nNext + j)
            ⟨by omega, by have := (hpred j hj).lt; omega⟩
            ⟨by omega, by have := (hpred j' hj').lt; omega⟩
        omega)
      (by
        intro j j' hj hj'
        rw [htl] at hj hj'
        rw [hslot j hj, hslot j' hj', hsp.pred_next j hj]
        have := hpslot j' hj'
        omega)
  -- the record of the deleted node is not touched by the unlink loop
  have hrecd : ∀ j, j < 4 → es2.getD (s.entries.length + j) 0
      = s1.entries.getD (s.entries.length + j) 0 := by
    intro j _
    apply h2
    intro l hl
    rw [htl] at hl
    rw [hslot l hl]
    have := hpslot l hl
    omega
  have hag : ∀ a, a < s.entries.length → es2.getD a 0 = s.entries.getD a 0 := by
    intro a ha
    by_cases hex : ∃ l, l < H ∧ a = s1.prevEntry.getD l 0 + l + nNext
    · obtain ⟨l, hl, rfl⟩ := hex
      have e1 := h1 l (by rw [htl]; exact hl)
      rw [hslot l hl, hsp.pred_next l hl, Nat.zero_add] at e1
      rw [e1, hsp.new_next l hl]
    · rw [h2 a ?_]
      · exact hsp.frame a ha (fun l hl heq => hex ⟨l, hl, heq⟩)
      · intro l hl heq
        rw [htl] at hl
        rw [hslot l hl] at heq
        exact hex ⟨l, hl, heq⟩
  have hi3 : s.entries.length + nHeight < s1.entries.length := by
    rw [hlen1]; simp only [nHeight, nNext]; omega
  have hi1 : s.entries.length + nKey < es2.length := by
    rw [hlen2, hlen1]; simp only [nKey, nNext]; omega
  have hi2 : s.entries.length + nVal < es2.length := by
    rw [hlen2, hlen1]; simp only [nVal, nNext]; omega
  have hk1 : es2.getD (s.entries.length + nKey) 0 = kl := by
    rw [show s.entries.length + nKey = s.entries.length + 1 from rfl, hrecd 1 (by omega)]
    exact hsp.rec_key
  have hk2 : es2.getD (s.entries.length + nVal) 0 = vl := by
    rw [show s.entries.length + nVal = s.entries.length + 2 from rfl, hrecd 2 (by omega)]
    exact hsp.rec_val
  unfold deleteLock
  rw [hrun]
  simp only [ok_bind, Bool.not_true, Bool.false_eq_true, if_false]
  rw [idx_of_lt hi3]
  simp only [ok_bind]
  rw [show s1.entries.getD (s.entries.length + nHeight) 0 = H from hsp.rec_hgt,
    sliceOf_zero hHp]
  simp only [ok_bind]
  rw [hun]
  simp only [ok_bind]
  rw [idx_of_lt hi1, ok_bind, idx_of_lt hi2, ok_bind, hk1, hk2]
  exact ⟨_, rfl, rfl, rfl, rfl, rfl, hplen, hlen2, hag⟩

/-- On a well-formed skip list the walk along a level only reads slots of the nodes,
so it is the same on every index vector that agrees with this one on its length. -/
theorem walk_agree {es es' : List Nat} {cache : Bytes} {mH : Nat} {ns : List Nat}
    (wf : WF es cache mH ns) (hag : ∀ a, a < es.length → es'.getD a 0 = es.getD a 0) (l : Nat) :
    ∀ (fuel x : Nat), (x = 0 ∨ x ∈ ns) → l < hgt es x → walk es' l fuel x = walk es l fuel x := by
  intro fuel
  induction fuel with
  | zero => intro x _ _; rfl
  | succ fuel ih =>
    intro x hx hl
    have hn : nxt es' x l = nxt es x l := hag _ (wf.slot_lt hx hl)
    unfold walk
    rw [hn]
    by_cases h0 : nxt es x l = 0
    · rw [if_pos h0, if_pos h0]
    · rw [if_neg h0, if_neg h0]
      have hmem : x ∈ 0 :: ns := by
        rcases hx with rfl | hx
        · exact List.mem_cons_self _ _
        · exact List.mem_cons_of_mem _ hx
      obtain ⟨A, B, hs⟩ := List.append_of_mem hmem
      have hlink := wf.links A x B hs l hl
      rcases firstAt_zero_or_mem es l B with hz | ⟨hB, hlt⟩
      · rw [hz] at hlink
        exact absurd hlink h0
      · rw [← hlink] at hB hlt
        rw [ih _ (Or.inr ((split_mem hs).2 _ hB)) hlt]

/-- Claim C18, the write-then-delete round trip: on a store built by writes, for a
non-empty key that was never written, any value and any draw stream (hence any
height of the new node), `Write` and then `deleteLock` of the key both return nil;
afterwards `CacheSize`, `EntryCount`, every slot of the old index vector and with
it the forward chain of every level are what they were before the write, `Read` of
the key fails with `errKeyNotFound` and `Read` of every other key returns what it
returned before. -/
theorem write_delete_round_trip (draws : Nat → Nat) (grow : Nat → Nat → Nat) (capacity : Nat)
    (ws : List (Bytes × Bytes)) (hne : ∀ w ∈ ws, w.1 ≠ []) (k v : Bytes) (hk0 : k ≠ [])
    (hk : k ∉ ws.map Prod.fst) :
    ∃ s rs s1 s2, run (newStore draws grow capacity) (ws.map (fun w => Call.write w.1 w.2))
        = .ok (s, rs) ∧
      Write s k v = .ok (s1, none) ∧ deleteLock s1 k = .ok (s2, none) ∧
      CacheSize s2 = CacheSize s ∧ EntryCount s2 = EntryCount s ∧
      (∀ a, a < s.entries.length → s2.entries.getD a 0 = s.entries.getD a 0) ∧
      (∀ l, l < tableHeight → ∀ fuel, walk s2.entries l fuel 0 = walk s.entries l fuel 0) ∧
      Read s2 k = .ok (s2, none, some error.errKeyNotFound) ∧
      (∀ q, q ≠ k → ∃ r e, Read s q = .ok (s, r, e) ∧ Read s2 q = .ok (s2, r, e)) := by
  obtain ⟨s, rs, ns, hrun, -, hv, hf⟩ := built_by_writes draws grow capacity ws hne
  have hnone := (hf k).2 (lastVal_eq_none hk)
  obtain ⟨s1, lo, hi, H, hw, hns, hv1, htx, hcs, hcache, hmH, hkey, -, hH12, hpred, hsp⟩ :=
    writeLock_insert_full hv k v hnone
  obtain ⟨s2, hd, htx2, hcs2, hcache2, hmH2, hplen2, hlen2, hag⟩ :=
    deleteLock_fresh hv hns hv1 hkey hH12 hpred hsp
  have wf := hv.1
  have hlen : s.entries.length ≤ s2.entries.length := by
    rw [hlen2, hsp.len]; omega
  obtain ⟨wf2, hk2, hv2⟩ := @WF.extend s.entries s2.entries s.cache s2.cache s.mHeight
    s2.mHeight ns wf hlen hag ⟨k ++ v, by rw [hcache2, hcache]⟩
    (by rw [hmH2]; exact hmH) (by rw [hmH2]; exact hv1.1.mH_le)
  have hvalid2 : Valid s2 ns := ⟨wf2, hplen2⟩
  refine ⟨s, rs, s1, s2, hrun, by rw [Write_of_ne v hk0, hw], hd, ?_, ?_, hag, ?_, ?_, ?_⟩
  · show s2.cacheSize = s.cacheSize
    rw [hcs2, hcs]; omega
  · show s2.txCount = s.txCount
    rw [htx2, htx]; omega
  · intro l hl fuel
    exact walk_agree wf hag l fuel 0 (Or.inl rfl) (by rw [wf.head_hgt]; exact hl)
  · rw [Read_of_ne hk0]
    exact readLock_miss hvalid2 k (fun n hn => by rw [hk2 n hn]; exact hnone n hn)
  · intro q hq
    by_cases hq0 : q = []
    · subst hq0
      exact ⟨none, some error.errMissingKey, rfl, rfl⟩
    · rw [Read_of_ne hq0, Read_of_ne hq0]
      rcases node_or_none s ns q with ⟨n, hn, hnq⟩ | hmiss
      · refine ⟨some (valAt s.entries s.cache n), none, ?_, ?_⟩
        · rw [← hnq]; exact readLock_hit hv hn
        · rw [← hnq, ← hk2 n hn, ← hv2 n hn]
          exact readLock_hit hvalid2 hn
      · exact ⟨none, some error.errKeyNotFound, readLock_miss hv q hmiss,
          readLock_miss hvalid2 q (fun n hn => by rw [hk2 n hn]; exact hmiss n hn)⟩

/-- An instance of `write_delete_round_trip`: `f` written to and deleted from a
store holding `a`, as in the size test of the package. -/
theorem write_delete_round_trip_witness :
    (∀ w ∈ [([97], [98])], (w : Bytes × Bytes).1 ≠ []) ∧ ([102] : Bytes) ≠ [] ∧
    ([102] : Bytes) ∉ ([([97], [98])] : List (Bytes × Bytes)).map Prod.fst ∧
    ∃ s rs s1 s2, run (newStore tallFirst doubling 0)
        (([([97], [98])] : List (Bytes × Bytes)).map (fun w => Call.write w.1 w.2))
        = .ok (s, rs) ∧
      Write s [102] [105] = .ok (s1, none) ∧ deleteLock s1 [102] = .ok (s2, none) ∧
      CacheSize s2 = CacheSize s ∧ EntryCount s2 = EntryCount s ∧
      (∀ a, a < s.entries.length → s2.entries.getD a 0 = s.entries.getD a 0) ∧
      (∀ l, l < tableHeight → ∀ fuel, walk s2.entries l fuel 0 = walk s.entries l fuel 0) ∧
      Read s2 [102] = .ok (s2, none, some error.errKeyNotFound) ∧
      (∀ q, q ≠ [102] → ∃ r e, Read s q = .ok (s, r, e) ∧ Read s2 q = .ok (s2, r, e)) :=
  ⟨by decide, by decide, by decide,
    write_delete_round_trip tallFirst doubling 0 _ (by decide) [102] [105] (by decide)
      (by decide)⟩

/-- A node whose level-0 forward pointer is the node itself and whose key is below
the key looked for: the loop of `scanEntries` stays on it whatever the fuel. -/
theorem scanLoop_self_loop {es : List Nat} {cache key : Bytes} {record : Bool} {n o kl : Nat}
    {b : Bytes} (hn : n ≠ 0) (hnext : idxI es ((n : Int) + nNext + 0) = .ok n)
    (ho : idx es n = .ok o) (hk : idx es (n + nKey) = .ok kl)
    (hs : sliceOf cache o (o + kl) = .ok b) (hlt : bytesCompare b key < 0) :
    ∀ (fuel : Nat) (prev : List Nat),
      scanLoop es cache key record fuel n 0 prev = .error .noReturn := by
  intro fuel
  induction fuel with
  | zero => intro prev; rfl
  | succ fuel ih =>
    intro prev
    unfold scanLoop
    rw [hnext, ok_bind]
    dsimp only
    rw [if_pos hn, ho, ok_bind, hk, ok_bind, hs, ok_bind, pure_eq_ok, ok_bind, if_pos hlt]
    exact ih prev

/-- Claim C11, level containment, evaluated where the code breaks it: with nodes of
height 2 for `b` and `c` and of height 1 for `a` and `aa`, after the four writes,
`deleteLock aa` and `deleteLock c`, all returning nil, the node of `b` (index 16) is
on the level-1 chain from the head and `Read b` finds it, but the level-0 chain from
the head is `a`, `c` and ends there: it does not contain the node of `b`. -/
theorem level_containment_broken :
    ∃ s rs, run (newStore tallTwo doubling 0)
        [.write [98] [1], .write [99] [2], .write [97] [3], .write [97, 97] [4],
          .delete [97, 97], .delete [99]] = .ok (s, rs) ∧
      rs = [.err none, .err none, .err none, .err none, .err none, .err none] ∧
      walk s.entries 1 5 0 = [16] ∧ keyAt s.entries s.cache 16 = [98] ∧
      walk s.entries 0 5 0 = [28, 22] ∧ nxt s.entries 22 0 = 0 ∧
      keyAt s.entries s.cache 28 = [97] ∧ keyAt s.entries s.cache 22 = [99] ∧
      Read s [98] = .ok (s, some [1], none) :=
  ⟨_, _, rfl, rfl, rfl, rfl, rfl, rfl, rfl, rfl, rfl⟩

/-- Claim C16, delete unlinks exactly the deleted node, evaluated where the code
breaks it: with a node of height 2 for `a` (index 16) and one of height 1 for `b`
(index 22), `deleteLock a` returns nil and turns the level-0 chain `a`, `b` into
`a`: the node of `b` is removed from it and the node of `a` stays. -/
theorem delete_unlinks_other_node :
    ∃ s rs s', run (newStore tallFirst doubling 0)
        [.write [97] [120], .write [98] [121]] = .ok (s, rs) ∧
      keyAt s.entries s.cache 16 = [97] ∧ hgt s.entries 16 = 2 ∧
      keyAt s.entries s.cache 22 = [98] ∧
      walk s.entries 0 3 0 = [16, 22] ∧ walk s.entries 1 3 0 = [16] ∧
      deleteLock s [97] = .ok (s', none) ∧
      walk s'.entries 0 3 0 = [16] ∧ walk s'.entries 1 3 0 = [] :=
  ⟨_, _, _, rfl, rfl, rfl, rfl, rfl, rfl, rfl, rfl, rfl⟩

/-- Claim C17, the predecessor trail, evaluated where the code breaks it: on the
store built by `Write a` (height 2) and `Write b`, which satisfies the invariant
and has the level-0 chain `a`, `b`, the call `scanEntries(a, true)` reports a match
at the node of `a` (index 16) and leaves `prevEntry[0] = 16`, the node of `a`
itself, whose key is not less than `a`; no node on level 0 has a smaller key, so
the slot should hold 0, the head. -/
theorem trail_stale_on_match :
    ∃ s rs ns s', run (newStore tallFirst doubling 0)
        [.write [97] [120], .write [98] [121]] = .ok (s, rs) ∧
      Valid s ns ∧ s.mHeight = 2 ∧ walk s.entries 0 3 0 = [16, 22] ∧
      keyAt s.entries s.cache 16 = [97] ∧
      scanEntries s [97] true = .ok (s', 16, true) ∧
      s'.prevEntry.getD 1 0 = 0 ∧ s'.prevEntry.getD 0 0 = 16 := by
  obtain ⟨s, rs, ns, hrun, -, hv, -⟩ :=
    built_by_writes tallFirst doubling 0 [([97], [120]), ([98], [121])] (by decide)
  obtain ⟨s0, rs0, s', h0, h1, h2, h3, h4, h5, h6⟩ :
      ∃ s0 rs0 s', run (newStore tallFirst doubling 0)
          [.write [97] [120], .write [98] [121]] = .ok (s0, rs0) ∧
        s0.mHeight = 2 ∧ walk s0.entries 0 3 0 = [16, 22] ∧
        keyAt s0.entries s0.cache 16 = [97] ∧
        scanEntries s0 [97] true = .ok (s', 16, true) ∧
        s'.prevEntry.getD 1 0 = 0 ∧ s'.prevEntry.getD 0 0 = 16 :=
    ⟨_, _, _, rfl, rfl, rfl, rfl, rfl, rfl, rfl⟩
  have hrun' : run (newStore tallFirst doubling 0)
      [.write [97] [120], .write [98] [121]] = .ok (s, rs) := hrun
  rw [h0] at hrun'
  obtain ⟨hs, -⟩ := Prod.mk.inj (Except.ok.inj hrun')
  rw [← hs] at hv
  exact ⟨s0, rs0, ns, s', h0, hv, h1, h2, h3, h4, h5, h6⟩

/-- Claim C20, scan termination, evaluated where the code breaks it: after
`Write a` (height 2), `Write b`, `deleteLock b` and `deleteLock a`, all returning
nil, the level-0 forward pointer of the node of `a` is that node itself, and the
loop of `scanEntries` for the key `b` does not return within any number of
iterations; `Read b` and `has b` therefore never return. -/
theorem scan_never_returns :
    ∃ s rs, run (newStore tallFirst doubling 0)
        [.write [97] [120], .write [98] [121], .delete [98], .delete [97]] = .ok (s, rs) ∧
      rs = [.err none, .err none, .err none, .err none] ∧
      nxt s.entries 16 0 = 16 ∧
      (∀ fuel, scanLoop s.entries s.cache [98] false fuel 0 ((s.mHeight : Int) - 1) s.prevEntry
        = .error .noReturn) ∧
      Read s [98] = .error .noReturn ∧ has s [98] = .error .noReturn := by
  obtain ⟨s, rs, hrun, hrs, hnx, hmh, h5, h4, hnext, ho, hk, hs, hlt⟩ :
      ∃ s rs, run (newStore tallFirst doubling 0)
          [.write [97] [120], .write [98] [121], .delete [98], .delete [97]] = .ok (s, rs) ∧
        rs = [.err none, .err none, .err none, .err none] ∧
        nxt s.entries 16 0 = 16 ∧ s.mHeight = 2 ∧
        idxI s.entries (((0 : Nat) : Int) + nNext + 1) = .ok 0 ∧
        idxI s.entries (((0 : Nat) : Int) + nNext + (1 - 1)) = .ok 16 ∧
        idxI s.entries (((16 : Nat) : Int) + nNext + 0) = .ok 16 ∧
        idx s.entries 16 = .ok 0 ∧ idx s.entries (16 + nKey) = .ok 1 ∧
        sliceOf s.cache 0 (0 + 1) = .ok [97] ∧ bytesCompare [97] [98] < 0 :=
    ⟨_, _, rfl, rfl, rfl, rfl, rfl, rfl, rfl, rfl, rfl, rfl, by decide⟩
  have hloop := @scanLoop_self_loop s.entries s.cache [98] false 16 0 1 [97] (by decide)
    hnext ho hk hs hlt
  have hall : ∀ fuel, scanLoop s.entries s.cache [98] false fuel 0 ((s.mHeight : Int) - 1)
      s.prevEntry = .error .noReturn := by
    intro fuel
    have hh : (s.mHeight : Int) - 1 = 1 := by rw [hmh]; rfl
    rw [hh]
    match fuel with
    | 0 => rfl
    | 1 =>
      unfold scanLoop
      rw [h5, ok_bind]
      rfl
    | fuel + 2 =>
      unfold scanLoop
      rw [h5, ok_bind]
      dsimp only
      rw [if_neg (by decide), pure_eq_ok, ok_bind, if_neg (by decide)]
      rw [if_neg (by decide), pure_eq_ok, ok_bind, if_neg (by decide), if_neg (by decide)]
      unfold scanLoop
      rw [h4, ok_bind]
      dsimp only
      rw [if_pos (by decide), ho, ok_bind, hk, ok_bind, hs, ok_bind, pure_eq_ok, ok_bind,
        if_pos hlt]
      exact hloop fuel s.prevEntry
  have hscan : scanEntries s [98] false = .error .noReturn := by
    unfold scanEntries
    rw [hall]
    rfl
  refine ⟨s, rs, hrun, hrs, hnx, hall, ?_, ?_⟩
  · show readLock s [98] = .error .noReturn
    unfold readLock
    rw [hscan]
    rfl
  · unfold has
    rw [hscan]
    rfl

end Storage
